import Mathlib

set_option maxHeartbeats 1000000

/-!
Shallow embedding of the timeline engine of this repository
(`TimelineEngine`, `Utilities.ts`, `timeline-layout.ts`) and proofs of the
specification claims about it.  Dates are modelled as calendar triples
(year, month, day); the iterators of `Utilities.ts` read only
`getFullYear`/`getMonth`/`getDate` of their inputs, so this carrier is
faithful.  Milliseconds-since-epoch values are modelled as integers and
pixel coordinates as integers (only their ordering is used by the embedded
code); bar heights use rationals since the scaling stage divides.
-/

namespace Timeline

/-! ### Zoom bookkeeping (`TimelineEngine.zoomIn` / `zoomOut`, part_004 lines 475-484) -/

def minZoom : Int := 1

def maxZoom : Int := 4

-- `zoomIn`: `this.zoomTo(Math.max(this.minZoom, this.zoom - 1))`
def zoomInTarget (zoom : Int) : Int := max minZoom (zoom - 1)

-- `zoomOut`: `this.zoomTo(Math.min(this.maxZoom - 1, this.zoom + 1))`
def zoomOutTarget (zoom : Int) : Int := min (maxZoom - 1) (zoom + 1)

def clamp (v lo hi : Int) : Int := max lo (min v hi)

inductive ZoomOp where
  | zin : ZoomOp
  | zout : ZoomOp

-- `zoomTo` unconditionally ends with `this.zoom = zoom`, so the zoom field
-- after a zoomIn/zoomOut is exactly the computed target.
def applyZoomOp (z : Int) : ZoomOp → Int
  | .zin => zoomInTarget z
  | .zout => zoomOutTarget z

def runZoomOps (z : Int) : List ZoomOp → Int
  | [] => z
  | op :: ops => runZoomOps (applyZoomOp z op) ops

/-! ### Event listener delegates (part_004 lines 200-248)

`delegate.combine` appends a listener to the multicast list,
`delegate.remove` removes its last registration (.NET delegate semantics,
which the yFiles `delegate` helper mirrors). -/

def delegateCombine {L : Type} (cur : List L) (l : L) : List L := cur ++ [l]

def delegateRemove {L : Type} [DecidableEq L] (cur : List L) (l : L) : List L :=
  (cur.reverse.erase l).reverse

-- `addFilterChangedListener` / `removeFilterChangedListener` (lines 200-206)
def addFilterChangedListener {L : Type} (s : List L) (l : L) : List L := delegateCombine s l

def removeFilterChangedListener {L : Type} [DecidableEq L] (s : List L) (l : L) : List L :=
  delegateRemove s l

-- `addAnimationEndListener` (line 239): `delegate.combine`
def addAnimationEndListener {L : Type} (s : List L) (l : L) : List L := delegateCombine s l

-- `removeAnimationEndListener` (line 247): the source calls `delegate.combine`
-- here as well (not `delegate.remove`).
def removeAnimationEndListener {L : Type} (s : List L) (l : L) : List L := delegateCombine s l

/-! ### Interval intersection (`Utilities.ts` lines 96-103) -/

def intervalsIntersect (start1 end1 start2 end2 : Int) : Bool :=
  !(decide (end1 ≤ start2) || decide (start1 ≥ end2))

/-! ### The filter predicate (`TimelineEngine.filterPredicate`, part_004 lines 728-760)

A `TimeRange` is a single `{start?, end?}` span, an array of spans, or an
array of numbers; the predicate branches on `Array.isArray` and on
`typeof entry === 'number'`, so mixed arrays are handled entry-wise.
A throwing `getTimeRange` accessor is modelled as `Except.error`; a JS
falsy item (the `if (!item) return false` guard) is modelled as `none`. -/

inductive TimeEntry where
  | point (t : Int)
  | span (s e : Option Int)
deriving DecidableEq, Repr

inductive TimeRange where
  | single (s e : Option Int)
  | arr (entries : List TimeEntry)
deriving DecidableEq, Repr

def entryMatches (tfStart tfEnd : Int) : TimeEntry → Bool
  | .point t => decide (tfStart ≤ t) && decide (t < tfEnd)
  | .span (some s) (some e) => intervalsIntersect s e tfStart tfEnd
  | .span _ _ => true

def filterPredicate {α : Type} (getTimeRange : α → Except Unit (Option TimeRange))
    (timeframe : Int × Int) : Option α → Bool
  | none => false
  | some it =>
    match getTimeRange it with
    | .error _ => false
    | .ok timeEntry =>
      match timeEntry with
      | some (.arr entries) => entries.any (entryMatches timeframe.1 timeframe.2)
      | some (.single s e) =>
        match s, e with
        | some s', some e' => intervalsIntersect s' e' timeframe.1 timeframe.2
        | _, _ => true
      | none => false

/-! Specification-side reading of the same rule (claim C4's words): some
entry of the item's time range intersects the timeframe under the half-open
rule, points match when `tfStart <= t < tfEnd`, and a span with an
undefined bound matches unconditionally. -/

def specSpanMatches (tfStart tfEnd : Int) : Option Int → Option Int → Prop
  | some s, some e => ¬(e ≤ tfStart ∨ s ≥ tfEnd)
  | _, _ => True

def specEntryMatches (tfStart tfEnd : Int) : TimeEntry → Prop
  | .point t => tfStart ≤ t ∧ t < tfEnd
  | .span s e => specSpanMatches tfStart tfEnd s e

def specMatchesRange (tfStart tfEnd : Int) : TimeRange → Prop
  | .single s e => specSpanMatches tfStart tfEnd s e
  | .arr es => ∃ en ∈ es, specEntryMatches tfStart tfEnd en

/-- For the amended C8: under `UNDEFINED_TIMEFRAME = [0, 0)` an entry
matches exactly when it is a span with an undefined bound or a defined span
straddling epoch 0. -/
def entryAlwaysOrStraddlesZero : TimeEntry → Prop
  | .point _ => False
  | .span (some s) (some e) => s < 0 ∧ 0 < e
  | .span _ _ => True

def rangeAlwaysOrStraddlesZero : TimeRange → Prop
  | .single (some s) (some e) => s < 0 ∧ 0 < e
  | .single _ _ => True
  | .arr es => ∃ en ∈ es, entryAlwaysOrStraddlesZero en

/-! ### `centerTimeFrame` (part_004 lines 817-824) and the aggregation fallback

`centerTimeFrame` indexes `allBuckets[Math.floor(len/2 - len/10)]` and
`allBuckets[Math.floor(len/2 + len/10)]`; in exact arithmetic those indices
are `(2*len)/5` and `(3*len)/5` (floor division).  Out-of-range indexing
(`undefined.start`) would throw in JS, modelled as `none`. -/

structure AggBucket where
  bstart : Int
  bend : Int
deriving DecidableEq, Repr

def centerTimeFrame (allBuckets : List AggBucket) : Option (Int × Int) :=
  match allBuckets.get? (2 * allBuckets.length / 5),
        allBuckets.get? (3 * allBuckets.length / 5) with
  | some b1, some b2 => some (b1.bstart, b2.bend)
  | _, _ => none

/-- Modelled from the spec: `bucket-aggregation.ts` is not among the source
files; spec section 4.2 says aggregation builds "the coarsest-to-finest
interval sequence spanning the min/max time across all items (falling back
to a default epoch window if no items)", so with `items = []` the bucket
list is the (nonempty) bucket sequence over a default epoch window.  Only
its nonemptiness matters below; one day-bucket at the epoch stands for it. -/
def aggregateBucketsOfEmpty : List AggBucket := [⟨0, 86400000⟩]

/-! ### `getTimeframeFromBounds` (part_004 lines 616-644)

View nodes carry their group flag, layout center and the time interval of
their bucket.  `UNDEFINED_TIMEFRAME` is the zero-length interval at epoch 0
(line 58). -/

structure ViewNode where
  isGroup : Bool
  cx : Int
  cy : Int
  bstart : Int
  bend : Int
deriving DecidableEq, Repr

structure PRect where
  x : Int
  y : Int
  w : Int
  h : Int
deriving DecidableEq, Repr

def rectContains (r : PRect) (px py : Int) : Bool :=
  decide (r.x ≤ px) && decide (px ≤ r.x + r.w) && decide (r.y ≤ py) && decide (py ≤ r.y + r.h)

def nodesInFrame (nodes : List ViewNode) (bounds : PRect) : List ViewNode :=
  (nodes.filter fun n => !n.isGroup).filter fun n => rectContains bounds n.cx n.cy

def getTimeframeFromBounds (nodes : List ViewNode) (bounds : PRect) : Int × Int :=
  match nodesInFrame nodes bounds with
  | [] => (0, 0)
  | n :: rest =>
    -- `reduce((start, current) => currentBucket.start < startBucket.start ? current : start)`
    let minNode := rest.foldl (fun acc cur => if cur.bstart < acc.bstart then cur else acc) n
    -- `reduce((end, current) => currentBucket.end > endBucket.end ? current : end)`
    let maxNode := rest.foldl (fun acc cur => if cur.bend > acc.bend then cur else acc) n
    (minNode.bstart, maxNode.bend)

/-! ### The bar scaling stage (`timeline-layout.ts` lines 106-130) -/

structure LayoutNode where
  isGroupTag : Bool
  layer : Nat
  aggregatedValue : ℚ
  width : ℚ
  height : ℚ
deriving DecidableEq, Repr

def barMaxValue (zoom : Nat) (nodes : List LayoutNode) : ℚ :=
  nodes.foldl (fun mv n => if n.isGroupTag && n.layer == zoom then max mv n.aggregatedValue else mv) 0

def barScalingStage (maxHeight : ℚ) (zoom : Nat) (nodes : List LayoutNode) : List LayoutNode :=
  let maxValue := barMaxValue zoom nodes
  let scale := if 0 < maxValue then maxHeight / maxValue else 1
  nodes.map fun n =>
    if n.isGroupTag then { n with height := n.aggregatedValue * scale } else n

/-! ### Calendar dates and the granularity iterators (`Utilities.ts` lines 3-94)

The iterators create JS `Date` values only through `new Date(y, m, d)`
(local midnight, with month and day-of-month normalization), advance them
with `setDate`/`setMonth`/`setFullYear`, read them back via
`getFullYear`/`getMonth`/`getDate`, and compare them chronologically.  A
date is therefore modelled as a calendar triple and `mkDate` performs the
JS normalization; chronological comparison of the midnight dates occurring
here is lexicographic on (year, month, day). -/

@[ext]
structure CalDate where
  year : Int
  month : Nat
  day : Nat
deriving DecidableEq, Repr

-- proleptic Gregorian leap years, as JS local dates use
def isLeap (y : Int) : Bool := (y % 4 == 0 && y % 100 != 0) || y % 400 == 0

def daysInMonth (y : Int) (m : Nat) : Nat :=
  match m with
  | 0 => 31
  | 1 => if isLeap y then 29 else 28
  | 2 => 31
  | 3 => 30
  | 4 => 31
  | 5 => 30
  | 6 => 31
  | 7 => 31
  | 8 => 30
  | 9 => 31
  | 10 => 30
  | _ => 31

-- `new Date(y, m, _)`: month over-/underflow moves into the year with
-- floor semantics (Int division in Lean is Euclidean, which coincides with
-- floor division for the positive divisor 12)
def normMonth (y m : Int) : Int × Nat := (y + m / 12, (m % 12).toNat)

-- day-of-month overflow moves into the following months; the engine only
-- constructs dates with day argument at least 1, so no underflow occurs.
-- Every month has at least one day, so `d` borrow steps always suffice;
-- the explicit bound keeps the recursion structural (and so computable).
def fixDayAux : Nat → Int → Nat → Nat → CalDate
  | 0, y, m, d => ⟨y, m, d⟩
  | fuel + 1, y, m, d =>
    if daysInMonth y m < d then
      fixDayAux fuel (normMonth y ((m : Int) + 1)).1 (normMonth y ((m : Int) + 1)).2
        (d - daysInMonth y m)
    else ⟨y, m, d⟩

def fixDay (y : Int) (m : Nat) (d : Nat) : CalDate := fixDayAux d y m d

-- `new Date(y, m, d)`
def mkDate (y m : Int) (d : Nat) : CalDate :=
  fixDay (normMonth y m).1 (normMonth y m).2 d

def CalDate.Valid (a : CalDate) : Prop :=
  a.month < 12 ∧ 1 ≤ a.day ∧ a.day ≤ daysInMonth a.year a.month

instance (a : CalDate) : Decidable a.Valid := by
  unfold CalDate.Valid; infer_instance

-- chronological order (JS compares epoch milliseconds; for the local
-- midnights handled here that is lexicographic on the calendar triple)
def dlt (a b : CalDate) : Bool :=
  decide (a.year < b.year) ||
    (decide (a.year = b.year) &&
      (decide (a.month < b.month) || (decide (a.month = b.month) && decide (a.day < b.day))))

def dle (a b : CalDate) : Bool := dlt a b || decide (a = b)

-- integer code that is strictly monotone in chronological order on
-- calendar-valid dates; loop variant of the iterators below
def code372 (a : CalDate) : Int := a.year * 372 + (a.month : Int) * 31 + (a.day : Int)

def MONTHS : List String :=
  ["January", "February", "March", "April", "May", "June", "July", "August",
    "September", "October", "November", "December"]

structure LInterval where
  s : CalDate
  e : CalDate
  label : String
deriving DecidableEq, Repr

-- the common `for (let currentDate = floor; currentDate < ceiling; )` loop
-- of `days`/`months`/`years`, over the step and label of each granularity;
-- fuel bounds the iteration count, `iterFuel` below always suffices
def iterFrom (step : CalDate → CalDate) (lbl : CalDate → String) (ceiling : CalDate) :
    Nat → CalDate → List LInterval
  | 0, _ => []
  | fuel + 1, cur =>
    if dlt cur ceiling then ⟨cur, step cur, lbl cur⟩ :: iterFrom step lbl ceiling fuel (step cur)
    else []

def iterFuel (floor ceiling : CalDate) : Nat := (code372 ceiling - code372 floor).toNat + 1

-- `days` (Utilities.ts lines 22-32): floor = midnight of start's day,
-- ceiling = midnight after end's day, step `setDate(getDate() + 1)`,
-- label `String(start.getDate())`
def dayFloor (s : CalDate) : CalDate := mkDate s.year s.month s.day

def dayCeil (e : CalDate) : CalDate := mkDate e.year e.month (e.day + 1)

def dayStep (c : CalDate) : CalDate := mkDate c.year c.month (c.day + 1)

def days (s e : CalDate) : List LInterval :=
  iterFrom dayStep (fun c => toString c.day) (dayCeil e) (iterFuel (dayFloor s) (dayCeil e))
    (dayFloor s)

-- `months` (lines 64-74): floor = first of start's month, ceiling = first
-- of the month after end's, step `setMonth(getMonth() + 1)`, label
-- `MONTHS[start.getMonth()]`
def monthFloor (s : CalDate) : CalDate := mkDate s.year s.month 1

def monthCeil (e : CalDate) : CalDate := mkDate e.year ((e.month : Int) + 1) 1

def monthStep (c : CalDate) : CalDate := mkDate c.year ((c.month : Int) + 1) c.day

def months (s e : CalDate) : List LInterval :=
  iterFrom monthStep (fun c => MONTHS.getD c.month "") (monthCeil e)
    (iterFuel (monthFloor s) (monthCeil e)) (monthFloor s)

-- `years` (lines 80-90): floor = Jan 1 of start's year, ceiling = Jan 1
-- after end's year, step `setFullYear(getFullYear() + 1)` (which keeps
-- month and day, re-normalizing), label `String(start.getFullYear())`
def yearFloor (s : CalDate) : CalDate := mkDate s.year 0 1

def yearCeil (e : CalDate) : CalDate := mkDate (e.year + 1) 0 1

def yearStep (c : CalDate) : CalDate := mkDate (c.year + 1) (c.month : Int) c.day

def years (s e : CalDate) : List LInterval :=
  iterFrom yearStep (fun c => toString c.year) (yearCeil e)
    (iterFuel (yearFloor s) (yearCeil e)) (yearFloor s)

-- `weeks` (lines 38-58): same floor/ceiling as `months`; inside the loop
-- `currentDate.setDate(currentDate.getDate() + 7)`, then if the month (or,
-- for Dec to Jan, the year) advanced past the week's start, clip with
-- `currentDate.setDate(1)` and restart the week counter at 0 (incremented
-- to 1 after the yield)
def weekStepped (c : CalDate) : CalDate := mkDate c.year c.month (c.day + 7)

def weekClip (c : CalDate) : Bool :=
  decide (c.month < (weekStepped c).month) || decide (c.year < (weekStepped c).year)

def weekEnd (c : CalDate) : CalDate :=
  if weekClip c then mkDate (weekStepped c).year ((weekStepped c).month : Int) 1
  else weekStepped c

def weeksFrom (ceiling : CalDate) : Nat → CalDate → Nat → List LInterval
  | 0, _, _ => []
  | fuel + 1, cur, week =>
    if dlt cur ceiling then
      ⟨cur, weekEnd cur, toString week⟩ ::
        weeksFrom ceiling fuel (weekEnd cur) ((if weekClip cur then 0 else week) + 1)
    else []

def weeks (s e : CalDate) : List LInterval :=
  weeksFrom (monthCeil e) (iterFuel (monthFloor s) (monthCeil e)) (monthFloor s) 1

-- spec-side helper: the first day of the calendar month after `a`'s
def firstOfNextMonth (a : CalDate) : CalDate :=
  if a.month < 11 then ⟨a.year, a.month + 1, 1⟩ else ⟨a.year + 1, 0, 1⟩

/-- The yielded intervals chain from `a` to `b`: the first starts at `a`,
each interval's end is the next one's start, and the last ends at `b`
(an empty chain forces `a = b`). -/
def IsChain (a : CalDate) : List LInterval → CalDate → Prop
  | [], b => a = b
  | iv :: rest, b => iv.s = a ∧ IsChain iv.e rest b

/-- Claim C3's contract for one granularity iterator: the yielded list is
nonempty, strictly ascending and gap-free (each interval has start < end
and chains exactly from `floor` to `ceiling`), and its union is exactly
the half-open interval `[floor, ceiling)`. -/
def CoversSpec (floor ceiling : CalDate) (L : List LInterval) : Prop :=
  L ≠ [] ∧
  IsChain floor L ceiling ∧
  (∀ iv ∈ L, dlt iv.s iv.e = true) ∧
  (∀ t : CalDate, (∃ iv ∈ L, dle iv.s t = true ∧ dlt t iv.e = true) ↔
    (dle floor t = true ∧ dlt t ceiling = true))

/-- Claim C2's contract for the week iterator: the yielded weeks chain from
`floor` to `ceiling`; every week starts on day `7k + 1` of its month and is
labeled with its 1-based position `(day - 1) / 7 + 1` in that month; a week
that would cross into the next calendar month is clipped to end on the
first of that month (also across Dec to Jan); adjacent weeks in the same
month carry consecutive labels, while a month change restarts the label at
"1"; and the first yielded week is labeled "1". -/
def WeeksSpec (floor ceiling : CalDate) (L : List LInterval) : Prop :=
  IsChain floor L ceiling ∧
  (∀ iv ∈ L, dlt iv.s iv.e = true ∧ iv.s.Valid ∧ iv.s.day % 7 = 1 ∧
    iv.label = toString ((iv.s.day - 1) / 7 + 1) ∧
    iv.e = if iv.s.day + 7 ≤ daysInMonth iv.s.year iv.s.month
      then ⟨iv.s.year, iv.s.month, iv.s.day + 7⟩ else firstOfNextMonth iv.s) ∧
  List.Chain' (fun p q => q.s = p.e ∧
    (if q.s.year = p.s.year ∧ q.s.month = p.s.month
      then q.label = toString ((p.s.day - 1) / 7 + 2) else q.label = "1")) L ∧
  (∀ iv ∈ L.head?, iv.label = "1")

/-! ### The zoom/folding state machine (`TimelineEngine.zoomTo`, part_004 lines 491-536)

The engine's folded graph is built from the 4-level bucket hierarchy
(day = layer 1, week = layer 2, month = layer 3, year = layer 4; every
bucket is a group node of the master graph, per `createGroupNodesSource`).
A bucket is visible in the view graph when all its proper ancestors are
expanded; a visible expanded bucket is a view group node, a visible
collapsed bucket is a folder (non-group) view node.  One iteration of
`zoomTo`'s do-while loop scans all visible view nodes and then applies the
collected transitions: collapse the expanded buckets at `layer === zoom`,
expand the collapsed buckets at `layer > zoom`.  Layers strictly decrease
from parent to child, so the collected transitions touch pairwise
unrelated nodes and the source's sequential application (collapses, then
expansions) equals the simultaneous one modelled here. -/

structure DayB where
  collapsed : Bool
deriving DecidableEq, Repr

structure WeekB where
  collapsed : Bool
  days : List DayB
deriving DecidableEq, Repr

structure MonthB where
  collapsed : Bool
  weeks : List WeekB
deriving DecidableEq, Repr

structure YearB where
  collapsed : Bool
  months : List MonthB
deriving DecidableEq, Repr

abbrev TLForest := List YearB

-- the new collapsed bit of a visible bucket of layer `l` after one pass
def stepC (z l : Nat) (c : Bool) : Bool :=
  if c then (if z < l then false else c) else decide (l = z)

-- whether the scan collects a transition for a visible bucket of layer `l`
def chC (z l : Nat) (c : Bool) : Bool :=
  if c then decide (z < l) else decide (l = z)

-- measure contribution of a bucket of layer `l` (counted whether or not
-- it is visible): collapsed above the target layer or expanded at it
def phiC (z l : Nat) (c : Bool) : Nat :=
  if c then (if z < l then 1 else 0) else (if l = z then 1 else 0)

def stepDay (z : Nat) (b : DayB) : DayB := ⟨stepC z 1 b.collapsed⟩

def stepWeek (z : Nat) (b : WeekB) : WeekB :=
  ⟨stepC z 2 b.collapsed, if b.collapsed then b.days else b.days.map (stepDay z)⟩

def stepMonth (z : Nat) (b : MonthB) : MonthB :=
  ⟨stepC z 3 b.collapsed, if b.collapsed then b.weeks else b.weeks.map (stepWeek z)⟩

def stepYear (z : Nat) (b : YearB) : YearB :=
  ⟨stepC z 4 b.collapsed, if b.collapsed then b.months else b.months.map (stepMonth z)⟩

def stepForest (z : Nat) (f : TLForest) : TLForest := f.map (stepYear z)

def chDay (z : Nat) (b : DayB) : Bool := chC z 1 b.collapsed

def chWeek (z : Nat) (b : WeekB) : Bool :=
  chC z 2 b.collapsed || (!b.collapsed && b.days.any (chDay z))

def chMonth (z : Nat) (b : MonthB) : Bool :=
  chC z 3 b.collapsed || (!b.collapsed && b.weeks.any (chWeek z))

def chYear (z : Nat) (b : YearB) : Bool :=
  chC z 4 b.collapsed || (!b.collapsed && b.months.any (chMonth z))

def chForest (z : Nat) (f : TLForest) : Bool := f.any (chYear z)

def phiDay (z : Nat) (b : DayB) : Nat := phiC z 1 b.collapsed

def phiWeek (z : Nat) (b : WeekB) : Nat :=
  phiC z 2 b.collapsed + (b.days.map (phiDay z)).sum

def phiMonth (z : Nat) (b : MonthB) : Nat :=
  phiC z 3 b.collapsed + (b.weeks.map (phiWeek z)).sum

def phiYear (z : Nat) (b : YearB) : Nat :=
  phiC z 4 b.collapsed + (b.months.map (phiMonth z)).sum

def phiForest (z : Nat) (f : TLForest) : Nat := (f.map (phiYear z)).sum

-- the do-while loop of `zoomTo`: run a pass while the scan finds
-- transitions; the returned Bool is `zoomChanged`
def zoomToLoop (z : Nat) : Nat → TLForest → TLForest × Bool
  | 0, f => (f, false)
  | fuel + 1, f =>
    if chForest z f then ((zoomToLoop z fuel (stepForest z f)).1, true)
    else (f, false)

-- each changing pass strictly decreases `phiForest`, so `phiForest + 1`
-- passes always reach the fixed point the source's do-while stops at
def zoomTo (z : Nat) (f : TLForest) : TLForest × Bool :=
  zoomToLoop z (phiForest z f + 1) f

end Timeline

namespace Timeline

/-! ## Theorems -/

theorem applyZoomOp_bounds (z : Int) (op : ZoomOp) (h1 : minZoom ≤ z) (h2 : z < maxZoom) :
    minZoom ≤ applyZoomOp z op ∧ applyZoomOp z op < maxZoom := by
  unfold minZoom maxZoom at *
  cases op <;>
    simp only [applyZoomOp, zoomInTarget, zoomOutTarget, minZoom, maxZoom] <;>
    constructor <;> omega

theorem runZoomOps_bounds (ops : List ZoomOp) (z : Int) (h1 : minZoom ≤ z) (h2 : z < maxZoom) :
    minZoom ≤ runZoomOps z ops ∧ runZoomOps z ops < maxZoom := by
  induction ops generalizing z with
  | nil => exact ⟨h1, h2⟩
  | cons op ops ih =>
    obtain ⟨h1', h2'⟩ := applyZoomOp_bounds z op h1 h2
    exact ih (applyZoomOp z op) h1' h2'

/-- Claim C6: `zoomIn()` targets `clamp(zoom - 1, minZoom, maxZoom - 1)` and
`zoomOut()` targets `clamp(zoom + 1, minZoom, maxZoom - 1)` on every
reachable zoom level, and starting from the constructor's `zoomTo(2)` every
sequence of `zoomIn`/`zoomOut` calls keeps the zoom field in
`[minZoom, maxZoom) = [1, 4)`. -/
theorem C6_zoom_targets_clamped_and_invariant :
    (∀ z : Int, minZoom ≤ z → z < maxZoom →
      zoomInTarget z = clamp (z - 1) minZoom (maxZoom - 1) ∧
      zoomOutTarget z = clamp (z + 1) minZoom (maxZoom - 1)) ∧
    (∀ ops : List ZoomOp, minZoom ≤ runZoomOps 2 ops ∧ runZoomOps 2 ops < maxZoom) := by
  constructor
  · intro z h1 h2
    unfold minZoom maxZoom at *
    constructor <;>
      simp only [zoomInTarget, zoomOutTarget, clamp, minZoom, maxZoom] <;> omega
  · intro ops
    exact runZoomOps_bounds ops 2 (by decide) (by decide)

/-- Witness for C6 at concrete inputs. -/
theorem C6_zoom_targets_clamped_and_invariant_witness :
    ((minZoom ≤ (2 : Int) ∧ (2 : Int) < maxZoom) ∧
      (zoomInTarget 2 = clamp (2 - 1) minZoom (maxZoom - 1) ∧
        zoomOutTarget 2 = clamp (2 + 1) minZoom (maxZoom - 1))) ∧
    (minZoom ≤ runZoomOps 2 [ZoomOp.zin, ZoomOp.zin, ZoomOp.zout] ∧
      runZoomOps 2 [ZoomOp.zin, ZoomOp.zin, ZoomOp.zout] < maxZoom) :=
  ⟨⟨⟨by decide, by decide⟩,
      C6_zoom_targets_clamped_and_invariant.1 2 (by decide) (by decide)⟩,
    C6_zoom_targets_clamped_and_invariant.2 [ZoomOp.zin, ZoomOp.zin, ZoomOp.zout]⟩

/-- Claim C10: the source's `removeAnimationEndListener` calls
`delegate.combine` (part_004 line 247), so add-then-remove leaves the
listener registered (twice) instead of un-registered; the filter-changed
pair, which uses `delegate.remove`, really is inverse. -/
theorem C10_remove_animation_end_listener_is_combine :
    removeAnimationEndListener (addAnimationEndListener ([] : List Nat) 0) 0 = [0, 0] ∧
    (0 : Nat) ∈ removeAnimationEndListener (addAnimationEndListener ([] : List Nat) 0) 0 ∧
    removeFilterChangedListener (addFilterChangedListener ([] : List Nat) 0) 0 = [] := by
  decide

theorem barMaxValue_nonneg (zoom : Nat) (nodes : List LayoutNode) :
    0 ≤ barMaxValue zoom nodes := by
  suffices h : ∀ (l : List LayoutNode) (a : ℚ), 0 ≤ a →
      0 ≤ l.foldl (fun mv n => if n.isGroupTag && n.layer == zoom then max mv n.aggregatedValue else mv) a by
    exact h nodes 0 le_rfl
  intro l
  induction l with
  | nil => intro a ha; exact ha
  | cons n t ih =>
    intro a ha
    simp only [List.foldl_cons]
    by_cases hn : n.isGroupTag && n.layer == zoom
    · simp only [hn, if_true]
      exact ih _ (le_trans ha (le_max_left _ _))
    · simp only [hn, if_false]
      exact ih _ ha

theorem barMaxValue_is_bound (zoom : Nat) (nodes : List LayoutNode) :
    ∀ n ∈ nodes, n.isGroupTag = true → n.layer = zoom →
      n.aggregatedValue ≤ barMaxValue zoom nodes := by
  suffices h : ∀ (l : List LayoutNode) (a : ℚ),
      (a ≤ l.foldl (fun mv n => if n.isGroupTag && n.layer == zoom then max mv n.aggregatedValue else mv) a) ∧
      (∀ n ∈ l, n.isGroupTag = true → n.layer = zoom →
        n.aggregatedValue ≤ l.foldl (fun mv n => if n.isGroupTag && n.layer == zoom then max mv n.aggregatedValue else mv) a) by
    exact (h nodes 0).2
  intro l
  induction l with
  | nil => intro a; exact ⟨le_rfl, by simp⟩
  | cons n t ih =>
    intro a
    simp only [List.foldl_cons]
    constructor
    · by_cases hn : n.isGroupTag && n.layer == zoom
      · simp only [hn, if_true]
        exact le_trans (le_max_left _ _) (ih _).1
      · simp only [hn, if_false]; exact (ih _).1
    · intro m hm hg hl
      rcases List.mem_cons.mp hm with rfl | hm
      · have hn : m.isGroupTag && m.layer == zoom := by
          simp [hg, hl]
        simp only [hn, if_true]
        exact le_trans (le_max_right _ _) (ih _).1
      · by_cases hn : n.isGroupTag && n.layer == zoom <;>
          simp only [hn, if_true, if_false] <;>
          exact (ih _).2 m hm hg hl

theorem barMaxValue_attained (zoom : Nat) (nodes : List LayoutNode) :
    barMaxValue zoom nodes = 0 ∨
      ∃ n ∈ nodes, n.isGroupTag = true ∧ n.layer = zoom ∧
        n.aggregatedValue = barMaxValue zoom nodes := by
  suffices h : ∀ (l : List LayoutNode) (a : ℚ),
      l.foldl (fun mv n => if n.isGroupTag && n.layer == zoom then max mv n.aggregatedValue else mv) a = a ∨
      ∃ n ∈ l, n.isGroupTag = true ∧ n.layer = zoom ∧
        n.aggregatedValue = l.foldl (fun mv n => if n.isGroupTag && n.layer == zoom then max mv n.aggregatedValue else mv) a by
    rcases h nodes 0 with h | h
    · exact Or.inl h
    · exact Or.inr h
  intro l
  induction l with
  | nil => intro a; exact Or.inl rfl
  | cons n t ih =>
    intro a
    simp only [List.foldl_cons]
    by_cases hn : n.isGroupTag && n.layer == zoom
    · simp only [hn, if_true]
      have hn' : n.isGroupTag = true ∧ n.layer = zoom := by
        simpa using hn
      rcases ih (max a n.aggregatedValue) with h | h
      · rcases le_total n.aggregatedValue a with hcase | hcase
        · exact Or.inl (by rw [h, max_eq_left hcase])
        · refine Or.inr ⟨n, List.mem_cons_self _ _, hn'.1, hn'.2, ?_⟩
          rw [h, max_eq_right hcase]
      · obtain ⟨m, hm, h1, h2, h3⟩ := h
        exact Or.inr ⟨m, List.mem_cons_of_mem _ hm, h1, h2, h3⟩
    · simp only [hn, if_false]
      rcases ih a with h | h
      · exact Or.inl h
      · obtain ⟨m, hm, h1, h2, h3⟩ := h
        exact Or.inr ⟨m, List.mem_cons_of_mem _ hm, h1, h2, h3⟩

/-- Claim C9: the bar scaling stage computes `scale = maxHeight / M` where
`M` is the maximum `aggregatedValue` over the group-tagged nodes of the
active zoom layer (`scale = 1` when that maximum is zero or no such node
exists), then sets every group-tagged node's height to
`aggregatedValue * scale` leaving its width (and all other data) unchanged. -/
theorem C9_bar_scaling (maxHeight : ℚ) (zoom : Nat) (nodes : List LayoutNode)
    (hpos : ∀ n ∈ nodes, 0 ≤ n.aggregatedValue) :
    ∃ M : ℚ, 0 ≤ M ∧
      (∀ n ∈ nodes, n.isGroupTag = true → n.layer = zoom → n.aggregatedValue ≤ M) ∧
      (M = 0 ∨ ∃ n ∈ nodes, n.isGroupTag = true ∧ n.layer = zoom ∧ n.aggregatedValue = M) ∧
      barScalingStage maxHeight zoom nodes =
        nodes.map fun n =>
          if n.isGroupTag then
            { n with height := n.aggregatedValue * (if M = 0 then 1 else maxHeight / M) }
          else n := by
  refine ⟨barMaxValue zoom nodes, barMaxValue_nonneg zoom nodes,
    barMaxValue_is_bound zoom nodes, barMaxValue_attained zoom nodes, ?_⟩
  unfold barScalingStage
  have hM := barMaxValue_nonneg zoom nodes
  by_cases h0 : barMaxValue zoom nodes = 0
  · simp [h0]
  · have hlt : 0 < barMaxValue zoom nodes := lt_of_le_of_ne hM (Ne.symm h0)
    simp [h0, hlt, not_le.mpr hlt]

/-- Witness for C9 at a concrete input. -/
theorem C9_bar_scaling_witness :
    (∀ n ∈ [(⟨true, 1, 5, 3, 7⟩ : LayoutNode), ⟨false, 1, 2, 3, 4⟩], 0 ≤ n.aggregatedValue) ∧
    (∃ M : ℚ, 0 ≤ M ∧
      (∀ n ∈ [(⟨true, 1, 5, 3, 7⟩ : LayoutNode), ⟨false, 1, 2, 3, 4⟩],
        n.isGroupTag = true → n.layer = 1 → n.aggregatedValue ≤ M) ∧
      (M = 0 ∨ ∃ n ∈ [(⟨true, 1, 5, 3, 7⟩ : LayoutNode), ⟨false, 1, 2, 3, 4⟩],
        n.isGroupTag = true ∧ n.layer = 1 ∧ n.aggregatedValue = M) ∧
      barScalingStage 10 1 [(⟨true, 1, 5, 3, 7⟩ : LayoutNode), ⟨false, 1, 2, 3, 4⟩] =
        [(⟨true, 1, 5, 3, 7⟩ : LayoutNode), ⟨false, 1, 2, 3, 4⟩].map fun n =>
          if n.isGroupTag then
            { n with height := n.aggregatedValue * (if M = 0 then 1 else 10 / M) }
          else n) :=
  ⟨by decide, C9_bar_scaling 10 1 [⟨true, 1, 5, 3, 7⟩, ⟨false, 1, 2, 3, 4⟩] (by decide)⟩

theorem entryMatches_iff (tfStart tfEnd : Int) (en : TimeEntry) :
    entryMatches tfStart tfEnd en = true ↔ specEntryMatches tfStart tfEnd en := by
  cases en with
  | point t => simp [entryMatches, specEntryMatches]
  | span s e =>
    cases s <;> cases e <;>
      simp [entryMatches, specEntryMatches, specSpanMatches, intervalsIntersect] <;>
      omega

/-- Claim C4: for an item whose accessor yields a time range, the filter
returns true iff some entry matches the current timeframe: a defined span
`[s, e)` matches under the half-open rule `¬(e ≤ tfStart ∨ s ≥ tfEnd)`, a
point `t` matches when `tfStart ≤ t < tfEnd`, and a span with an undefined
start or end matches unconditionally. -/
theorem C4_filter_matches_spec {α : Type} (getTR : α → Except Unit (Option TimeRange))
    (tf : Int × Int) (it : α) (r : TimeRange) (h : getTR it = .ok (some r)) :
    filterPredicate getTR tf (some it) = true ↔ specMatchesRange tf.1 tf.2 r := by
  simp only [filterPredicate, h]
  cases r with
  | single s e =>
    cases s <;> cases e <;>
      simp [specMatchesRange, specSpanMatches, intervalsIntersect] <;> omega
  | arr es =>
    simp only [specMatchesRange, List.any_eq_true]
    constructor
    · rintro ⟨en, hen, hm⟩
      exact ⟨en, hen, (entryMatches_iff tf.1 tf.2 en).mp hm⟩
    · rintro ⟨en, hen, hm⟩
      exact ⟨en, hen, (entryMatches_iff tf.1 tf.2 en).mpr hm⟩

/-- Witness for C4 at a concrete input. -/
theorem C4_filter_matches_spec_witness :
    ((fun _ : Unit => Except.ok (ε := Unit) (some (TimeRange.arr [.point 3, .span none (some 9)]))) () =
        .ok (some (TimeRange.arr [.point 3, .span none (some 9)]))) ∧
    (filterPredicate (fun _ : Unit => Except.ok (some (TimeRange.arr [.point 3, .span none (some 9)])))
        (0, 10) (some ()) = true ↔
      specMatchesRange 0 10 (TimeRange.arr [.point 3, .span none (some 9)])) :=
  ⟨rfl, C4_filter_matches_spec _ (0, 10) () _ rfl⟩

/-- Claim C7: when the injected `getTimeRange` accessor throws for an item,
the filter returns false for that item; the exception is caught, never
propagated. -/
theorem C7_throwing_accessor_filtered_out {α : Type}
    (getTR : α → Except Unit (Option TimeRange)) (tf : Int × Int) (it : α)
    (h : getTR it = .error ()) :
    filterPredicate getTR tf (some it) = false := by
  simp only [filterPredicate, h]

/-- Witness for C7 at a concrete input. -/
theorem C7_throwing_accessor_filtered_out_witness :
    ((fun _ : Unit => (Except.error () : Except Unit (Option TimeRange))) () = .error ()) ∧
    filterPredicate (fun _ : Unit => (Except.error () : Except Unit (Option TimeRange)))
      (0, 10) (some ()) = false :=
  ⟨rfl, C7_throwing_accessor_filtered_out _ (0, 10) () rfl⟩

/-- Counterexample to claim C8 as stated: under the timeframe
`UNDEFINED_TIMEFRAME = [0, 0)` (which the claim says the empty input
produces), an item whose `TimeRange` is a span with an undefined start is
matched by the filter (the undefined-bound branch returns true without
consulting the timeframe), so the filter is not false for every item. -/
theorem C8_counterexample_filter_true_on_undefined_span :
    filterPredicate
        (fun _ : Unit => Except.ok (some (TimeRange.single none (some 5))))
        (0, 0) (some ()) = true ∧
    filterPredicate
        (fun _ : Unit => Except.ok (some (TimeRange.single (some (-1)) (some 1))))
        (0, 0) (some ()) = true := by
  constructor <;> rfl

/-- Amended claim C8: with empty input the (spec-modelled) aggregation falls
back to a nonempty default epoch window, so `centerTimeFrame` inside
`update` is well-defined (no out-of-range access); and under
`UNDEFINED_TIMEFRAME = [0, 0)` the filter returns true exactly for items
whose time range has an entry that is a span with an undefined bound or a
defined span straddling epoch 0 — in particular it returns false for every
point entry and for every fully defined span not straddling 0, but not for
every item. -/
theorem C8_amended_empty_input {α : Type} (bs : List AggBucket) (hbs : bs ≠ [])
    (getTR : α → Except Unit (Option TimeRange)) (it : α) (ro : Option TimeRange)
    (h : getTR it = .ok ro) :
    (centerTimeFrame bs).isSome = true ∧
    (filterPredicate getTR (0, 0) (some it) = true ↔
      ∃ r, ro = some r ∧ rangeAlwaysOrStraddlesZero r) := by
  constructor
  · have hlen : 0 < bs.length := List.length_pos.mpr hbs
    have h1 : 2 * bs.length / 5 < bs.length := by
      apply Nat.div_lt_of_lt_mul; omega
    have h2 : 3 * bs.length / 5 < bs.length := by
      apply Nat.div_lt_of_lt_mul; omega
    unfold centerTimeFrame
    rw [List.get?_eq_get h1, List.get?_eq_get h2]
    rfl
  · simp only [filterPredicate, h]
    cases ro with
    | none => simp
    | some r =>
      cases r with
      | single s e =>
        cases s <;> cases e <;>
          simp [rangeAlwaysOrStraddlesZero, intervalsIntersect] <;> omega
      | arr es =>
        simp only [List.any_eq_true, rangeAlwaysOrStraddlesZero]
        constructor
        · rintro ⟨en, hen, hm⟩
          refine ⟨_, rfl, en, hen, ?_⟩
          cases en with
          | point t => simp [entryMatches] at hm; omega
          | span s e =>
            cases s <;> cases e <;>
              simp_all [entryMatches, entryAlwaysOrStraddlesZero, intervalsIntersect] <;> omega
        · rintro ⟨r', hr', hstr⟩
          have hr'' : TimeRange.arr es = r' := by injection hr'
          subst hr''
          obtain ⟨en, hen, hm⟩ := hstr
          refine ⟨en, hen, ?_⟩
          cases en with
          | point t => exact absurd hm (by simp [entryAlwaysOrStraddlesZero])
          | span s e =>
            cases s <;> cases e <;>
              simp_all [entryMatches, entryAlwaysOrStraddlesZero, intervalsIntersect] <;> omega

/-- Witness for the amended C8 at concrete inputs. -/
theorem C8_amended_empty_input_witness :
    (aggregateBucketsOfEmpty ≠ [] ∧
      (fun _ : Unit => Except.ok (ε := Unit) (some (TimeRange.single (some 0) (some 5)))) () =
        .ok (some (TimeRange.single (some 0) (some 5)))) ∧
    ((centerTimeFrame aggregateBucketsOfEmpty).isSome = true ∧
      (filterPredicate (fun _ : Unit => Except.ok (some (TimeRange.single (some 0) (some 5))))
          (0, 0) (some ()) = true ↔
        ∃ r, (some (TimeRange.single (some 0) (some 5)) : Option TimeRange) = some r ∧
          rangeAlwaysOrStraddlesZero r)) :=
  ⟨⟨by decide, rfl⟩,
    C8_amended_empty_input aggregateBucketsOfEmpty (by decide) _ () _ rfl⟩

theorem foldl_minNode_spec (rest : List ViewNode) (acc : ViewNode) :
    (rest.foldl (fun acc cur => if cur.bstart < acc.bstart then cur else acc) acc = acc ∨
      rest.foldl (fun acc cur => if cur.bstart < acc.bstart then cur else acc) acc ∈ rest) ∧
    (rest.foldl (fun acc cur => if cur.bstart < acc.bstart then cur else acc) acc).bstart ≤ acc.bstart ∧
    (∀ n ∈ rest,
      (rest.foldl (fun acc cur => if cur.bstart < acc.bstart then cur else acc) acc).bstart ≤ n.bstart) := by
  induction rest generalizing acc with
  | nil => exact ⟨Or.inl rfl, le_rfl, by simp⟩
  | cons m t ih =>
    simp only [List.foldl_cons]
    by_cases hm : m.bstart < acc.bstart
    · simp only [hm, if_true]
      obtain ⟨hmem, hle, hall⟩ := ih m
      refine ⟨?_, ?_, ?_⟩
      · rcases hmem with h | h
        · exact Or.inr (by rw [h]; exact List.mem_cons_self _ _)
        · exact Or.inr (List.mem_cons_of_mem _ h)
      · exact le_trans hle (le_of_lt hm)
      · intro n hn
        rcases List.mem_cons.mp hn with rfl | hn
        · exact hle
        · exact hall n hn
    · simp only [hm, if_false]
      obtain ⟨hmem, hle, hall⟩ := ih acc
      refine ⟨?_, hle, ?_⟩
      · rcases hmem with h | h
        · exact Or.inl h
        · exact Or.inr (List.mem_cons_of_mem _ h)
      · intro n hn
        rcases List.mem_cons.mp hn with rfl | hn
        · exact le_trans hle (not_lt.mp hm)
        · exact hall n hn

theorem foldl_maxNode_spec (rest : List ViewNode) (acc : ViewNode) :
    (rest.foldl (fun acc cur => if cur.bend > acc.bend then cur else acc) acc = acc ∨
      rest.foldl (fun acc cur => if cur.bend > acc.bend then cur else acc) acc ∈ rest) ∧
    acc.bend ≤ (rest.foldl (fun acc cur => if cur.bend > acc.bend then cur else acc) acc).bend ∧
    (∀ n ∈ rest,
      n.bend ≤ (rest.foldl (fun acc cur => if cur.bend > acc.bend then cur else acc) acc).bend) := by
  induction rest generalizing acc with
  | nil => exact ⟨Or.inl rfl, le_rfl, by simp⟩
  | cons m t ih =>
    simp only [List.foldl_cons]
    by_cases hm : m.bend > acc.bend
    · simp only [hm, if_true]
      obtain ⟨hmem, hle, hall⟩ := ih m
      refine ⟨?_, le_trans (le_of_lt hm) hle, ?_⟩
      · rcases hmem with h | h
        · exact Or.inr (by rw [h]; exact List.mem_cons_self _ _)
        · exact Or.inr (List.mem_cons_of_mem _ h)
      · intro n hn
        rcases List.mem_cons.mp hn with rfl | hn
        · exact hle
        · exact hall n hn
    · simp only [hm, if_false]
      obtain ⟨hmem, hle, hall⟩ := ih acc
      refine ⟨?_, hle, ?_⟩
      · rcases hmem with h | h
        · exact Or.inl h
        · exact Or.inr (List.mem_cons_of_mem _ h)
      · intro n hn
        rcases List.mem_cons.mp hn with rfl | hn
        · exact le_trans (not_lt.mp hm) hle
        · exact hall n hn

/-- Claim C5: among the visible non-group nodes whose layout center lies
within the given bounds, `getTimeframeFromBounds` returns the interval from
the minimum bucket start to the maximum bucket end; when no such node
exists it returns `UNDEFINED_TIMEFRAME = [0, 0)` rather than failing. -/
theorem C5_timeframe_from_bounds (nodes : List ViewNode) (bounds : PRect) :
    (nodesInFrame nodes bounds = [] → getTimeframeFromBounds nodes bounds = (0, 0)) ∧
    (nodesInFrame nodes bounds ≠ [] →
      (∃ n ∈ nodesInFrame nodes bounds,
          (getTimeframeFromBounds nodes bounds).1 = n.bstart) ∧
      (∀ n ∈ nodesInFrame nodes bounds,
          (getTimeframeFromBounds nodes bounds).1 ≤ n.bstart) ∧
      (∃ n ∈ nodesInFrame nodes bounds,
          (getTimeframeFromBounds nodes bounds).2 = n.bend) ∧
      (∀ n ∈ nodesInFrame nodes bounds,
          n.bend ≤ (getTimeframeFromBounds nodes bounds).2)) := by
  constructor
  · intro h
    unfold getTimeframeFromBounds
    rw [h]
  · intro h
    unfold getTimeframeFromBounds
    rcases hni : nodesInFrame nodes bounds with _ | ⟨n, rest⟩
    · exact absurd hni h
    · simp only
      obtain ⟨hmem1, hle1, hall1⟩ := foldl_minNode_spec rest n
      obtain ⟨hmem2, hle2, hall2⟩ := foldl_maxNode_spec rest n
      refine ⟨?_, ?_, ?_, ?_⟩
      · rcases hmem1 with h1 | h1
        · exact ⟨n, List.mem_cons_self _ _, by rw [h1]⟩
        · exact ⟨_, List.mem_cons_of_mem _ h1, rfl⟩
      · intro m hm
        rcases List.mem_cons.mp hm with rfl | hm
        · exact hle1
        · exact hall1 m hm
      · rcases hmem2 with h2 | h2
        · exact ⟨n, List.mem_cons_self _ _, by rw [h2]⟩
        · exact ⟨_, List.mem_cons_of_mem _ h2, rfl⟩
      · intro m hm
        rcases List.mem_cons.mp hm with rfl | hm
        · exact hle2
        · exact hall2 m hm

/-- Witness for C5 at a concrete input (one node inside the bounds, one
group node and one far node excluded). -/
theorem C5_timeframe_from_bounds_witness :
    (nodesInFrame [(⟨false, 5, 5, 100, 200⟩ : ViewNode), ⟨true, 5, 5, 0, 999⟩,
        ⟨false, 50, 5, 300, 400⟩] ⟨0, 0, 10, 10⟩ ≠ []) ∧
    ((∃ n ∈ nodesInFrame [(⟨false, 5, 5, 100, 200⟩ : ViewNode), ⟨true, 5, 5, 0, 999⟩,
          ⟨false, 50, 5, 300, 400⟩] ⟨0, 0, 10, 10⟩,
        (getTimeframeFromBounds [(⟨false, 5, 5, 100, 200⟩ : ViewNode), ⟨true, 5, 5, 0, 999⟩,
          ⟨false, 50, 5, 300, 400⟩] ⟨0, 0, 10, 10⟩).1 = n.bstart) ∧
      (∀ n ∈ nodesInFrame [(⟨false, 5, 5, 100, 200⟩ : ViewNode), ⟨true, 5, 5, 0, 999⟩,
          ⟨false, 50, 5, 300, 400⟩] ⟨0, 0, 10, 10⟩,
        (getTimeframeFromBounds [(⟨false, 5, 5, 100, 200⟩ : ViewNode), ⟨true, 5, 5, 0, 999⟩,
          ⟨false, 50, 5, 300, 400⟩] ⟨0, 0, 10, 10⟩).1 ≤ n.bstart) ∧
      (∃ n ∈ nodesInFrame [(⟨false, 5, 5, 100, 200⟩ : ViewNode), ⟨true, 5, 5, 0, 999⟩,
          ⟨false, 50, 5, 300, 400⟩] ⟨0, 0, 10, 10⟩,
        (getTimeframeFromBounds [(⟨false, 5, 5, 100, 200⟩ : ViewNode), ⟨true, 5, 5, 0, 999⟩,
          ⟨false, 50, 5, 300, 400⟩] ⟨0, 0, 10, 10⟩).2 = n.bend) ∧
      (∀ n ∈ nodesInFrame [(⟨false, 5, 5, 100, 200⟩ : ViewNode), ⟨true, 5, 5, 0, 999⟩,
          ⟨false, 50, 5, 300, 400⟩] ⟨0, 0, 10, 10⟩,
        n.bend ≤ (getTimeframeFromBounds [(⟨false, 5, 5, 100, 200⟩ : ViewNode), ⟨true, 5, 5, 0, 999⟩,
          ⟨false, 50, 5, 300, 400⟩] ⟨0, 0, 10, 10⟩).2)) :=
  ⟨by decide,
    (C5_timeframe_from_bounds [⟨false, 5, 5, 100, 200⟩, ⟨true, 5, 5, 0, 999⟩,
      ⟨false, 50, 5, 300, 400⟩] ⟨0, 0, 10, 10⟩).2 (by decide)⟩

theorem phiC_step_le (z l : Nat) (c : Bool) : phiC z l (stepC z l c) ≤ phiC z l c := by
  cases c <;> by_cases h1 : z < l <;> by_cases h2 : l = z <;>
    simp [stepC, phiC, h1, h2] <;> omega

theorem chC_step_lt (z l : Nat) (c : Bool) (h : chC z l c = true) :
    phiC z l (stepC z l c) < phiC z l c := by
  cases c <;> by_cases h1 : z < l <;> by_cases h2 : l = z <;>
    simp [stepC, chC, phiC, h1, h2] at h ⊢ <;> omega

theorem phiDay_step_le (z : Nat) (b : DayB) : phiDay z (stepDay z b) ≤ phiDay z b :=
  phiC_step_le z 1 b.collapsed

theorem chDay_step_lt (z : Nat) (b : DayB) (h : chDay z b = true) :
    phiDay z (stepDay z b) < phiDay z b :=
  chC_step_lt z 1 b.collapsed h

theorem phiWeek_step_le (z : Nat) (b : WeekB) : phiWeek z (stepWeek z b) ≤ phiWeek z b := by
  rcases b with ⟨c, ds⟩
  cases c
  · simp only [stepWeek, phiWeek, Bool.false_eq_true, if_false, List.map_map]
    exact Nat.add_le_add (phiC_step_le z 2 false)
      (List.sum_le_sum fun d _ => phiDay_step_le z d)
  · simp only [stepWeek, phiWeek, if_true]
    exact Nat.add_le_add_right (phiC_step_le z 2 true) _

theorem chWeek_step_lt (z : Nat) (b : WeekB) (h : chWeek z b = true) :
    phiWeek z (stepWeek z b) < phiWeek z b := by
  rcases b with ⟨c, ds⟩
  cases c
  · simp only [chWeek, Bool.not_false, Bool.true_and, Bool.or_eq_true] at h
    rcases h with h | h
    · simp only [stepWeek, phiWeek, Bool.false_eq_true, if_false, List.map_map]
      exact Nat.add_lt_add_of_lt_of_le (chC_step_lt z 2 false h)
        (List.sum_le_sum fun d _ => phiDay_step_le z d)
    · obtain ⟨d, hd, hcd⟩ := List.any_eq_true.mp h
      simp only [stepWeek, phiWeek, Bool.false_eq_true, if_false, List.map_map]
      exact Nat.add_lt_add_of_le_of_lt (phiC_step_le z 2 false)
        (List.sum_lt_sum _ _ (fun d _ => phiDay_step_le z d) ⟨d, hd, chDay_step_lt z d hcd⟩)
  · simp only [chWeek, Bool.not_true, Bool.false_and, Bool.or_false] at h
    simp only [stepWeek, phiWeek, if_true]
    exact Nat.add_lt_add_right (chC_step_lt z 2 true h) _

theorem phiMonth_step_le (z : Nat) (b : MonthB) : phiMonth z (stepMonth z b) ≤ phiMonth z b := by
  rcases b with ⟨c, ws⟩
  cases c
  · simp only [stepMonth, phiMonth, Bool.false_eq_true, if_false, List.map_map]
    exact Nat.add_le_add (phiC_step_le z 3 false)
      (List.sum_le_sum fun w _ => phiWeek_step_le z w)
  · simp only [stepMonth, phiMonth, if_true]
    exact Nat.add_le_add_right (phiC_step_le z 3 true) _

theorem chMonth_step_lt (z : Nat) (b : MonthB) (h : chMonth z b = true) :
    phiMonth z (stepMonth z b) < phiMonth z b := by
  rcases b with ⟨c, ws⟩
  cases c
  · simp only [chMonth, Bool.not_false, Bool.true_and, Bool.or_eq_true] at h
    rcases h with h | h
    · simp only [stepMonth, phiMonth, Bool.false_eq_true, if_false, List.map_map]
      exact Nat.add_lt_add_of_lt_of_le (chC_step_lt z 3 false h)
        (List.sum_le_sum fun w _ => phiWeek_step_le z w)
    · obtain ⟨w, hw, hcw⟩ := List.any_eq_true.mp h
      simp only [stepMonth, phiMonth, Bool.false_eq_true, if_false, List.map_map]
      exact Nat.add_lt_add_of_le_of_lt (phiC_step_le z 3 false)
        (List.sum_lt_sum _ _ (fun w _ => phiWeek_step_le z w) ⟨w, hw, chWeek_step_lt z w hcw⟩)
  · simp only [chMonth, Bool.not_true, Bool.false_and, Bool.or_false] at h
    simp only [stepMonth, phiMonth, if_true]
    exact Nat.add_lt_add_right (chC_step_lt z 3 true h) _

theorem phiYear_step_le (z : Nat) (b : YearB) : phiYear z (stepYear z b) ≤ phiYear z b := by
  rcases b with ⟨c, ms⟩
  cases c
  · simp only [stepYear, phiYear, Bool.false_eq_true, if_false, List.map_map]
    exact Nat.add_le_add (phiC_step_le z 4 false)
      (List.sum_le_sum fun m _ => phiMonth_step_le z m)
  · simp only [stepYear, phiYear, if_true]
    exact Nat.add_le_add_right (phiC_step_le z 4 true) _

theorem chYear_step_lt (z : Nat) (b : YearB) (h : chYear z b = true) :
    phiYear z (stepYear z b) < phiYear z b := by
  rcases b with ⟨c, ms⟩
  cases c
  · simp only [chYear, Bool.not_false, Bool.true_and, Bool.or_eq_true] at h
    rcases h with h | h
    · simp only [stepYear, phiYear, Bool.false_eq_true, if_false, List.map_map]
      exact Nat.add_lt_add_of_lt_of_le (chC_step_lt z 4 false h)
        (List.sum_le_sum fun m _ => phiMonth_step_le z m)
    · obtain ⟨m, hm, hcm⟩ := List.any_eq_true.mp h
      simp only [stepYear, phiYear, Bool.false_eq_true, if_false, List.map_map]
      exact Nat.add_lt_add_of_le_of_lt (phiC_step_le z 4 false)
        (List.sum_lt_sum _ _ (fun m _ => phiMonth_step_le z m) ⟨m, hm, chMonth_step_lt z m hcm⟩)
  · simp only [chYear, Bool.not_true, Bool.false_and, Bool.or_false] at h
    simp only [stepYear, phiYear, if_true]
    exact Nat.add_lt_add_right (chC_step_lt z 4 true h) _

theorem chForest_step_lt (z : Nat) (f : TLForest) (h : chForest z f = true) :
    phiForest z (stepForest z f) < phiForest z f := by
  obtain ⟨y, hy, hcy⟩ := List.any_eq_true.mp h
  simp only [stepForest, phiForest, List.map_map]
  exact List.sum_lt_sum _ _ (fun y _ => phiYear_step_le z y) ⟨y, hy, chYear_step_lt z y hcy⟩

theorem zoomToLoop_fixpoint (z : Nat) :
    ∀ fuel f, phiForest z f < fuel → chForest z (zoomToLoop z fuel f).1 = false := by
  intro fuel
  induction fuel with
  | zero => intro f h; exact absurd h (by omega)
  | succ fuel ih =>
    intro f h
    by_cases hch : chForest z f = true
    · simp only [zoomToLoop, hch, if_true]
      exact ih (stepForest z f) (by have := chForest_step_lt z f hch; omega)
    · have hch' : chForest z f = false := eq_false_of_ne_true hch
      simp only [zoomToLoop, hch', Bool.false_eq_true, if_false]

theorem zoomTo_of_no_transition (z : Nat) (f : TLForest) (h : chForest z f = false) :
    zoomTo z f = (f, false) := by
  unfold zoomTo
  simp [zoomToLoop, h]

/-- Claim C1: `zoomTo` is idempotent — for every zoom level in
`[minZoom, maxZoom) = [1, 4)` and every engine state, after one `zoomTo z`
call the scan of the do-while loop finds no further collapse or expand
transition, so a second `zoomTo z` leaves the state unchanged and returns
false. -/
theorem C1_zoomTo_idempotent (z : Nat) (f : TLForest) (h1 : 1 ≤ z) (h2 : z < 4) :
    chForest z (zoomTo z f).1 = false ∧
    zoomTo z (zoomTo z f).1 = ((zoomTo z f).1, false) := by
  have hfix : chForest z (zoomTo z f).1 = false :=
    zoomToLoop_fixpoint z (phiForest z f + 1) f (Nat.lt_succ_self _)
  exact ⟨hfix, zoomTo_of_no_transition z _ hfix⟩

/-- Witness for C1 at a concrete zoom level and forest (one year with one
month, one week and one day bucket, everything expanded). -/
theorem C1_zoomTo_idempotent_witness :
    ((1 : Nat) ≤ 2 ∧ (2 : Nat) < 4) ∧
    (chForest 2 (zoomTo 2 [⟨false, [⟨false, [⟨false, [⟨false⟩]⟩]⟩]⟩]).1 = false ∧
      zoomTo 2 (zoomTo 2 [⟨false, [⟨false, [⟨false, [⟨false⟩]⟩]⟩]⟩]).1 =
        ((zoomTo 2 [⟨false, [⟨false, [⟨false, [⟨false⟩]⟩]⟩]⟩]).1, false)) :=
  ⟨⟨by decide, by decide⟩,
    C1_zoomTo_idempotent 2 [⟨false, [⟨false, [⟨false, [⟨false⟩]⟩]⟩]⟩] (by decide) (by decide)⟩


/-! ### Calendar lemmas -/

theorem daysInMonth_pos (y : Int) (m : Nat) : 1 ≤ daysInMonth y m := by
  unfold daysInMonth
  split <;> first | omega | (split <;> omega)

theorem daysInMonth_le31 (y : Int) (m : Nat) : daysInMonth y m ≤ 31 := by
  unfold daysInMonth
  split <;> first | omega | (split <;> omega)

theorem daysInMonth_ge28 (y : Int) (m : Nat) : 28 ≤ daysInMonth y m := by
  unfold daysInMonth
  split <;> first | omega | (split <;> omega)

theorem normMonth_snd_lt (y m : Int) : (normMonth y m).2 < 12 := by
  unfold normMonth
  have h1 : 0 ≤ m % 12 := Int.emod_nonneg m (by norm_num)
  have h2 : m % 12 < 12 := Int.emod_lt_of_pos m (by norm_num)
  omega

theorem normMonth_small (y : Int) (m : Nat) (h : m < 12) : normMonth y (m : Int) = (y, m) := by
  unfold normMonth
  have h1 : (m : Int) / 12 = 0 := Int.ediv_eq_zero_of_lt (by positivity) (by exact_mod_cast h)
  have h2 : (m : Int) % 12 = m := Int.emod_eq_of_lt (by positivity) (by exact_mod_cast h)
  simp [h1, h2]

theorem normMonth_succ (y : Int) (m : Nat) (h : m < 12) :
    normMonth y ((m : Int) + 1) = if m < 11 then (y, m + 1) else (y + 1, 0) := by
  by_cases h11 : m < 11
  · have : ((m : Int) + 1) = ((m + 1 : Nat) : Int) := by push_cast; ring
    rw [this, normMonth_small y (m + 1) (by omega)]
    simp [h11]
  · have hm : m = 11 := by omega
    subst hm
    unfold normMonth
    norm_num

theorem normMonth_code (y m : Int) :
    (normMonth y m).1 * 372 + ((normMonth y m).2 : Int) * 31 = y * 372 + m * 31 := by
  unfold normMonth
  have h1 : 0 ≤ m % 12 := Int.emod_nonneg m (by norm_num)
  have h2 : 12 * (m / 12) + m % 12 = m := Int.ediv_add_emod m 12
  show (y + m / 12) * 372 + ((m % 12).toNat : Int) * 31 = y * 372 + m * 31
  rw [Int.toNat_of_nonneg h1]
  linarith

theorem fixDayAux_eq_self (fuel : Nat) (y : Int) (m d : Nat) (h : d ≤ daysInMonth y m) :
    fixDayAux fuel y m d = ⟨y, m, d⟩ := by
  cases fuel with
  | zero => rfl
  | succ fuel => unfold fixDayAux; simp [Nat.not_lt.mpr h]

theorem fixDay_eq_self (y : Int) (m d : Nat) (h : d ≤ daysInMonth y m) :
    fixDay y m d = ⟨y, m, d⟩ :=
  fixDayAux_eq_self d y m d h

theorem fixDayAux_valid : ∀ (fuel : Nat) (y : Int) (m d : Nat), m < 12 → 1 ≤ d →
    d ≤ fuel → (fixDayAux fuel y m d).Valid := by
  intro fuel
  induction fuel with
  | zero => intro y m d _ h1 h2; omega
  | succ fuel ih =>
    intro y m d hm hd hdf
    unfold fixDayAux
    split
    · next h =>
      have hpos := daysInMonth_pos y m
      exact ih _ _ _ (normMonth_snd_lt y ((m : Int) + 1)) (by omega) (by omega)
    · next h =>
      refine ⟨hm, hd, ?_⟩
      dsimp only
      omega

theorem fixDay_valid : ∀ (d : Nat) (y : Int) (m : Nat), m < 12 → 1 ≤ d →
    (fixDay y m d).Valid :=
  fun d y m hm hd => fixDayAux_valid d y m d hm hd (Nat.le_refl d)

theorem mkDate_valid (y m : Int) (d : Nat) (hd : 1 ≤ d) : (mkDate y m d).Valid :=
  fixDay_valid d _ _ (normMonth_snd_lt y m) hd

theorem mkDate_of_valid (a : CalDate) (ha : a.Valid) :
    mkDate a.year (a.month : Int) a.day = a := by
  unfold mkDate
  rw [normMonth_small a.year a.month ha.1]
  exact fixDay_eq_self a.year a.month a.day ha.2.2

/-! ### Order lemmas for `dlt`/`dle` (lexicographic chronological order) -/

theorem dlt_irrefl (a : CalDate) : dlt a a = false := by
  simp [dlt]

theorem dle_refl (a : CalDate) : dle a a = true := by
  simp [dle]

theorem dle_of_dlt {a b : CalDate} (h : dlt a b = true) : dle a b = true := by
  simp [dle, h]

theorem dlt_trans {a b c : CalDate} (h1 : dlt a b = true) (h2 : dlt b c = true) :
    dlt a c = true := by
  rcases a with ⟨ay, am, ad⟩; rcases b with ⟨by', bm, bd⟩; rcases c with ⟨cy, cm, cd⟩
  simp only [dlt, Bool.or_eq_true, Bool.and_eq_true, decide_eq_true_eq] at h1 h2 ⊢
  omega

theorem dle_iff {a b : CalDate} : dle a b = true ↔ (dlt a b = true ∨ a = b) := by
  simp [dle]

theorem dlt_asymm {a b : CalDate} (h1 : dle a b = true) (h2 : dlt b a = true) : False := by
  rcases dle_iff.mp h1 with h1 | rfl
  · rcases a with ⟨ay, am, ad⟩; rcases b with ⟨by', bm, bd⟩
    simp only [dlt, Bool.or_eq_true, Bool.and_eq_true, decide_eq_true_eq] at h1 h2
    omega
  · rw [dlt_irrefl] at h2; exact absurd h2 (by simp)

theorem dlt_dle_trans {a b c : CalDate} (h1 : dlt a b = true) (h2 : dle b c = true) :
    dlt a c = true := by
  rcases dle_iff.mp h2 with h2 | rfl
  · exact dlt_trans h1 h2
  · exact h1

theorem dle_dlt_trans {a b c : CalDate} (h1 : dle a b = true) (h2 : dlt b c = true) :
    dlt a c = true := by
  rcases dle_iff.mp h1 with h1 | rfl
  · exact dlt_trans h1 h2
  · exact h2

theorem dle_trans {a b c : CalDate} (h1 : dle a b = true) (h2 : dle b c = true) :
    dle a c = true := by
  rcases dle_iff.mp h1 with h1 | rfl
  · exact dle_of_dlt (dlt_dle_trans h1 h2)
  · exact h2

theorem dle_of_not_dlt {a b : CalDate} (h : dlt a b = false) : dle b a = true := by
  rcases a with ⟨ay, am, ad⟩; rcases b with ⟨by', bm, bd⟩
  simp only [dlt, dle, CalDate.mk.injEq, Bool.or_eq_true, Bool.and_eq_true,
    decide_eq_true_eq, Bool.or_eq_false_iff, Bool.and_eq_false_iff,
    decide_eq_false_iff_not, not_lt] at h ⊢
  omega

theorem eq_of_dle_not_dlt {a b : CalDate} (h1 : dle a b = true) (h2 : dlt a b = false) :
    a = b := by
  rcases dle_iff.mp h1 with h | h
  · rw [h] at h2; exact absurd h2 (by simp)
  · exact h

/-! ### `code372` lemmas -/

theorem code372_fixDayAux_ge : ∀ (fuel : Nat) (y : Int) (m d : Nat),
    y * 372 + (m : Int) * 31 + (d : Int) ≤ code372 (fixDayAux fuel y m d) := by
  intro fuel
  induction fuel with
  | zero => intro y m d; simp [fixDayAux, code372]
  | succ fuel ih =>
    intro y m d
    unfold fixDayAux
    split
    · next h =>
      have hpos := daysInMonth_pos y m
      have hle := daysInMonth_le31 y m
      have hrec := ih (normMonth y ((m : Int) + 1)).1 (normMonth y ((m : Int) + 1)).2
        (d - daysInMonth y m)
      have hcode := normMonth_code y ((m : Int) + 1)
      have hcast : ((d - daysInMonth y m : Nat) : Int) = (d : Int) - daysInMonth y m := by
        omega
      rw [hcast] at hrec
      omega
    · next h =>
      simp [code372]

theorem code372_fixDay_ge : ∀ (d : Nat) (y : Int) (m : Nat),
    y * 372 + (m : Int) * 31 + (d : Int) ≤ code372 (fixDay y m d) :=
  fun d y m => code372_fixDayAux_ge d y m d

theorem code372_mkDate_ge (y m : Int) (d : Nat) :
    y * 372 + m * 31 + (d : Int) ≤ code372 (mkDate y m d) := by
  unfold mkDate
  have h1 := code372_fixDay_ge d (normMonth y m).1 (normMonth y m).2
  have h2 := normMonth_code y m
  omega

theorem dlt_iff_code372 {a b : CalDate} (ha : a.Valid) (hb : b.Valid) :
    dlt a b = true ↔ code372 a < code372 b := by
  rcases a with ⟨ay, am, ad⟩; rcases b with ⟨by', bm, bd⟩
  obtain ⟨ham, had1, had2⟩ := ha
  obtain ⟨hbm, hbd1, hbd2⟩ := hb
  have h1 := daysInMonth_le31 ay am
  have h2 := daysInMonth_le31 by' bm
  simp only [dlt, code372, Bool.or_eq_true, Bool.and_eq_true, decide_eq_true_eq] at *
  omega

theorem dle_code372 {a b : CalDate} (ha : a.Valid) (hb : b.Valid) (h : dle a b = true) :
    code372 a ≤ code372 b := by
  rcases dle_iff.mp h with h | rfl
  · exact le_of_lt ((dlt_iff_code372 ha hb).mp h)
  · exact le_refl _

/-! ### Characterization of the iterator steps -/

theorem mk_year (y : Int) (m d : Nat) : (CalDate.mk y m d).year = y := rfl

theorem mk_month (y : Int) (m d : Nat) : (CalDate.mk y m d).month = m := rfl

theorem mk_day (y : Int) (m d : Nat) : (CalDate.mk y m d).day = d := rfl

theorem dlt_char (a b : CalDate) : dlt a b = true ↔
    (a.year < b.year ∨ (a.year = b.year ∧
      (a.month < b.month ∨ (a.month = b.month ∧ a.day < b.day)))) := by
  simp [dlt]

theorem mkDate_first_succ (y : Int) (m : Nat) (hm : m < 12) :
    mkDate y ((m : Int) + 1) 1 = firstOfNextMonth ⟨y, m, 1⟩ := by
  unfold mkDate firstOfNextMonth
  rw [normMonth_succ y m hm]
  by_cases h11 : m < 11
  · simp only [h11, if_true]
    exact fixDay_eq_self _ _ _ (daysInMonth_pos _ _)
  · simp only [h11, if_false]
    exact fixDay_eq_self _ _ _ (daysInMonth_pos _ _)

theorem firstOfNextMonth_irrelevant_day (a : CalDate) (d : Nat) :
    firstOfNextMonth ⟨a.year, a.month, d⟩ = firstOfNextMonth a := by
  unfold firstOfNextMonth
  rfl

theorem fixDay_overflow_one (y : Int) (m : Nat) (d : Nat)
    (h : d = daysInMonth y m) :
    fixDay y m (d + 1) = mkDate y ((m : Int) + 1) 1 := by
  unfold fixDay fixDayAux
  split
  · next hlt =>
    have h1 : d + 1 - daysInMonth y m = 1 := by omega
    rw [h1]
    rw [fixDayAux_eq_self d _ _ 1 (daysInMonth_pos _ _)]
    unfold mkDate fixDay
    rw [fixDayAux_eq_self 1 _ _ 1 (daysInMonth_pos _ _)]
  · next hge => omega

theorem dayStep_eq (a : CalDate) (ha : a.Valid) :
    dayStep a = if a.day + 1 ≤ daysInMonth a.year a.month
      then ⟨a.year, a.month, a.day + 1⟩ else firstOfNextMonth a := by
  obtain ⟨hm, hd1, hd2⟩ := ha
  unfold dayStep mkDate
  rw [normMonth_small a.year a.month hm]
  by_cases h : a.day + 1 ≤ daysInMonth a.year a.month
  · rw [if_pos h]
    exact fixDay_eq_self _ _ _ h
  · rw [if_neg h]
    have hd : a.day = daysInMonth a.year a.month := by omega
    rw [fixDay_overflow_one a.year a.month a.day hd]
    rw [mkDate_first_succ a.year a.month hm]
    exact firstOfNextMonth_irrelevant_day a 1

theorem firstOfNextMonth_valid (a : CalDate) (hm : a.month < 12) :
    (firstOfNextMonth a).Valid := by
  unfold firstOfNextMonth
  split
  · next h =>
    exact ⟨by show a.month + 1 < 12; omega, by show 1 ≤ 1; omega, daysInMonth_pos _ _⟩
  · next h =>
    exact ⟨by show 0 < 12; omega, by show 1 ≤ 1; omega, daysInMonth_pos _ _⟩

theorem firstOfNextMonth_day (a : CalDate) : (firstOfNextMonth a).day = 1 := by
  unfold firstOfNextMonth
  split <;> rfl

theorem dlt_firstOfNextMonth (a : CalDate) : dlt a (firstOfNextMonth a) = true := by
  unfold firstOfNextMonth
  split
  · next h =>
    rw [dlt_char]
    exact Or.inr ⟨rfl, Or.inl (Nat.lt_succ_self a.month)⟩
  · next h =>
    rw [dlt_char]
    exact Or.inl (lt_add_one a.year)

theorem dayStep_valid (a : CalDate) (ha : a.Valid) : (dayStep a).Valid :=
  mkDate_valid _ _ _ (by omega)

theorem dayStep_lt (a : CalDate) (ha : a.Valid) : dlt a (dayStep a) = true := by
  rw [dayStep_eq a ha]
  by_cases h : a.day + 1 ≤ daysInMonth a.year a.month
  · rw [if_pos h, dlt_char]
    dsimp only
    omega
  · rw [if_neg h]
    exact dlt_firstOfNextMonth a

-- minimality of the clip target when the ceiling is a month-first
theorem firstOfNextMonth_min {a b : CalDate} (ha : a.Valid) (hb : b.Valid)
    (hbd : b.day = 1) (h : dlt a b = true) : dle (firstOfNextMonth a) b = true := by
  obtain ⟨ham, had1, had2⟩ := ha
  obtain ⟨hbm, hbd1, hbd2⟩ := hb
  rw [dlt_char] at h
  unfold firstOfNextMonth
  by_cases h11 : a.month < 11
  · rw [if_pos h11, dle_iff, dlt_char, CalDate.ext_iff]
    simp only [mk_year, mk_month, mk_day]
    omega
  · rw [if_neg h11, dle_iff, dlt_char, CalDate.ext_iff]
    simp only [mk_year, mk_month, mk_day]
    omega

-- minimality of the clip target when the start sits on its month's last day
theorem firstOfNextMonth_min_of_monthEnd {a b : CalDate} (ha : a.Valid) (hb : b.Valid)
    (hda : a.day = daysInMonth a.year a.month) (h : dlt a b = true) :
    dle (firstOfNextMonth a) b = true := by
  obtain ⟨ham, had1, had2⟩ := ha
  obtain ⟨hbm, hbd1, hbd2⟩ := hb
  rw [dlt_char] at h
  have hsame : a.year = b.year → a.month = b.month → b.day ≤ daysInMonth a.year a.month := by
    intro hy hm'
    rw [hy, hm']
    exact hbd2
  unfold firstOfNextMonth
  by_cases h11 : a.month < 11
  · rw [if_pos h11, dle_iff, dlt_char, CalDate.ext_iff]
    simp only [mk_year, mk_month, mk_day]
    rcases h with h | ⟨hy, h | ⟨hm', hd'⟩⟩
    · omega
    · omega
    · have := hsame hy hm'
      omega
  · rw [if_neg h11, dle_iff, dlt_char, CalDate.ext_iff]
    simp only [mk_year, mk_month, mk_day]
    rcases h with h | ⟨hy, h | ⟨hm', hd'⟩⟩
    · omega
    · omega
    · have := hsame hy hm'
      omega

theorem dayStep_min {a b : CalDate} (ha : a.Valid) (hb : b.Valid)
    (h : dlt a b = true) : dle (dayStep a) b = true := by
  rw [dayStep_eq a ha]
  by_cases hcase : a.day + 1 ≤ daysInMonth a.year a.month
  · rw [if_pos hcase]
    obtain ⟨ham, had1, had2⟩ := ha
    obtain ⟨hbm, hbd1, hbd2⟩ := hb
    rw [dlt_char] at h
    rw [dle_iff, dlt_char, CalDate.ext_iff]
    simp only [mk_year, mk_month, mk_day]
    omega
  · rw [if_neg hcase]
    have hda : a.day = daysInMonth a.year a.month := by
      obtain ⟨_, _, had2⟩ := ha
      omega
    exact firstOfNextMonth_min_of_monthEnd ha hb hda h

theorem monthStep_eq (a : CalDate) (hm : a.month < 12) (hd : a.day = 1) :
    monthStep a = firstOfNextMonth a := by
  unfold monthStep
  rw [hd, mkDate_first_succ a.year a.month hm]
  exact firstOfNextMonth_irrelevant_day a 1

theorem mkDate_first (y : Int) (m : Nat) (hm : m < 12) :
    mkDate y (m : Int) 1 = ⟨y, m, 1⟩ := by
  unfold mkDate
  rw [normMonth_small y m hm]
  exact fixDay_eq_self _ _ _ (daysInMonth_pos _ _)

theorem yearFloor_eq (s : CalDate) : yearFloor s = ⟨s.year, 0, 1⟩ := by
  unfold yearFloor mkDate
  have h : normMonth s.year 0 = (s.year, 0) := by unfold normMonth; norm_num
  rw [h]
  exact fixDay_eq_self _ _ _ (daysInMonth_pos _ _)

theorem yearCeil_eq (e : CalDate) : yearCeil e = ⟨e.year + 1, 0, 1⟩ := by
  unfold yearCeil mkDate
  have h : normMonth (e.year + 1) 0 = (e.year + 1, 0) := by unfold normMonth; norm_num
  rw [h]
  exact fixDay_eq_self _ _ _ (daysInMonth_pos _ _)

theorem yearStep_eq (a : CalDate) (hm : a.month = 0) (hd : a.day = 1) :
    yearStep a = ⟨a.year + 1, 0, 1⟩ := by
  unfold yearStep
  rw [hm, hd]
  exact mkDate_first (a.year + 1) 0 (by omega)

theorem monthLex_le_of_dle {s e : CalDate} (h : dle s e = true) :
    s.year < e.year ∨ (s.year = e.year ∧ s.month ≤ e.month) := by
  rcases dle_iff.mp h with h | rfl
  · rw [dlt_char] at h
    omega
  · right; exact ⟨rfl, le_refl _⟩
/-! ### The generic iterator loop reaches the ceiling exactly -/

theorem iterFrom_spec (step : CalDate → CalDate) (lbl : CalDate → String)
    (V : CalDate → Prop) (ceiling : CalDate)
    (hV : ∀ a, V a → a.Valid) (hcV : ceiling.Valid)
    (hstepV : ∀ a, V a → V (step a))
    (hlt : ∀ a, V a → dlt a (step a) = true)
    (hmin : ∀ a, V a → dlt a ceiling = true → dle (step a) ceiling = true) :
    ∀ fuel cur, V cur → dle cur ceiling = true →
      (code372 ceiling - code372 cur).toNat < fuel →
      IsChain cur (iterFrom step lbl ceiling fuel cur) ceiling ∧
      (∀ iv ∈ iterFrom step lbl ceiling fuel cur,
        dlt iv.s iv.e = true ∧ V iv.s ∧ iv.e = step iv.s ∧ iv.label = lbl iv.s) := by
  intro fuel
  induction fuel with
  | zero =>
    intro cur hv hle hfl
    exact absurd hfl (by omega)
  | succ fuel ih =>
    intro cur hv hle hfl
    unfold iterFrom
    by_cases hg : dlt cur ceiling = true
    · rw [if_pos hg]
      have hnv : V (step cur) := hstepV cur hv
      have hlt' : dlt cur (step cur) = true := hlt cur hv
      have hnle : dle (step cur) ceiling = true := hmin cur hv hg
      have hc1 : code372 cur < code372 (step cur) :=
        (dlt_iff_code372 (hV cur hv) (hV _ hnv)).mp hlt'
      have hc2 : code372 (step cur) ≤ code372 ceiling :=
        dle_code372 (hV _ hnv) hcV hnle
      have hc3 : code372 cur < code372 ceiling :=
        (dlt_iff_code372 (hV cur hv) hcV).mp hg
      have hfl' : (code372 ceiling - code372 (step cur)).toNat < fuel := by omega
      obtain ⟨ihc, ihall⟩ := ih (step cur) hnv hnle hfl'
      refine ⟨⟨rfl, ihc⟩, ?_⟩
      intro iv hiv
      rcases List.mem_cons.mp hiv with rfl | hiv
      · exact ⟨hlt', hv, rfl, rfl⟩
      · exact ihall iv hiv
    · rw [if_neg hg]
      have hg' : dlt cur ceiling = false := eq_false_of_ne_true hg
      exact ⟨eq_of_dle_not_dlt hle hg', by simp⟩

/-! ### Chains of adjacent intervals -/

theorem chain_dle : ∀ (L : List LInterval) (a b : CalDate), IsChain a L b →
    (∀ iv ∈ L, dlt iv.s iv.e = true) → dle a b = true := by
  intro L
  induction L with
  | nil =>
    intro a b hch _
    rw [show a = b from hch]
    exact dle_refl b
  | cons iv rest ih =>
    intro a b hch hall
    obtain ⟨hs, hrest⟩ := hch
    have h1 : dlt iv.s iv.e = true := hall iv (List.mem_cons_self _ _)
    have h2 : dle iv.e b = true :=
      ih iv.e b hrest fun j hj => hall j (List.mem_cons_of_mem _ hj)
    have h3 : dle iv.s b = true := dle_of_dlt (dlt_dle_trans h1 h2)
    exact hs ▸ h3

theorem chain_union : ∀ (L : List LInterval) (a b : CalDate), IsChain a L b →
    (∀ iv ∈ L, dlt iv.s iv.e = true) →
    ∀ t : CalDate, (∃ iv ∈ L, dle iv.s t = true ∧ dlt t iv.e = true) ↔
      (dle a t = true ∧ dlt t b = true) := by
  intro L
  induction L with
  | nil =>
    intro a b hch _ t
    rw [show a = b from hch]
    constructor
    · rintro ⟨iv, hiv, _⟩
      exact absurd hiv (List.not_mem_nil iv)
    · rintro ⟨h1, h2⟩
      exact (dlt_asymm h1 h2).elim
  | cons iv rest ih =>
    intro a b hch hall t
    obtain ⟨hs, hrest⟩ := hch
    subst hs
    have hiv : dlt iv.s iv.e = true := hall iv (List.mem_cons_self _ _)
    have htail : ∀ j ∈ rest, dlt j.s j.e = true :=
      fun j hj => hall j (List.mem_cons_of_mem _ hj)
    have ihspec := ih iv.e b hrest htail t
    have hendb : dle iv.e b = true := chain_dle rest iv.e b hrest htail
    constructor
    · rintro ⟨j, hj, hj1, hj2⟩
      rcases List.mem_cons.mp hj with rfl | hj
      · exact ⟨hj1, dlt_dle_trans hj2 hendb⟩
      · obtain ⟨h1, h2⟩ := ihspec.mp ⟨j, hj, hj1, hj2⟩
        exact ⟨dle_trans (dle_of_dlt hiv) h1, h2⟩
    · rintro ⟨hat, htb⟩
      by_cases hte : dlt t iv.e = true
      · exact ⟨iv, List.mem_cons_self _ _, hat, hte⟩
      · have hot : dle iv.e t = true := dle_of_not_dlt (eq_false_of_ne_true hte)
        obtain ⟨j, hj, hj1, hj2⟩ := ihspec.mpr ⟨hot, htb⟩
        exact ⟨j, List.mem_cons_of_mem _ hj, hj1, hj2⟩

theorem coversSpec_of (floor ceiling : CalDate) (L : List LInterval)
    (hch : IsChain floor L ceiling) (hall : ∀ iv ∈ L, dlt iv.s iv.e = true)
    (hne : dlt floor ceiling = true) : CoversSpec floor ceiling L := by
  refine ⟨fun hnil => ?_, hch, hall, chain_union L floor ceiling hch hall⟩
  subst hnil
  have heq : floor = ceiling := hch
  rw [heq, dlt_irrefl] at hne
  exact absurd hne (by simp)

/-! ### Claim C3: days, months and years cover exactly `[floor, ceiling)` -/

theorem dayFloor_eq (s : CalDate) (hs : s.Valid) : dayFloor s = s :=
  mkDate_of_valid s hs

theorem days_covers (s e : CalDate) (hs : s.Valid) (he : e.Valid)
    (hse : dle s e = true) : CoversSpec (dayFloor s) (dayCeil e) (days s e) := by
  have hfl : dayFloor s = s := dayFloor_eq s hs
  have hcV : (dayCeil e).Valid := mkDate_valid _ _ _ (by omega)
  have hec : dlt e (dayCeil e) = true := dayStep_lt e he
  have hfc : dlt (dayFloor s) (dayCeil e) = true := by
    rw [hfl]; exact dle_dlt_trans hse hec
  obtain ⟨hch, hall⟩ := iterFrom_spec dayStep (fun c => toString c.day) CalDate.Valid
    (dayCeil e) (fun a ha => ha) hcV (fun a ha => dayStep_valid a ha)
    (fun a ha => dayStep_lt a ha) (fun a ha hg => dayStep_min ha hcV hg)
    (iterFuel (dayFloor s) (dayCeil e)) (dayFloor s) (by rw [hfl]; exact hs)
    (dle_of_dlt hfc) (Nat.lt_succ_self _)
  exact coversSpec_of _ _ _ hch (fun iv hiv => (hall iv hiv).1) hfc

theorem monthFloor_eq (s : CalDate) (hs : s.month < 12) :
    monthFloor s = ⟨s.year, s.month, 1⟩ :=
  mkDate_first s.year s.month hs

theorem monthCeil_eq (e : CalDate) (he : e.month < 12) :
    monthCeil e = firstOfNextMonth e := by
  unfold monthCeil
  rw [mkDate_first_succ e.year e.month he]
  exact firstOfNextMonth_irrelevant_day e 1

theorem months_covers (s e : CalDate) (hs : s.Valid) (he : e.Valid)
    (hse : dle s e = true) : CoversSpec (monthFloor s) (monthCeil e) (months s e) := by
  have hfl : monthFloor s = ⟨s.year, s.month, 1⟩ := monthFloor_eq s hs.1
  have hcl : monthCeil e = firstOfNextMonth e := monthCeil_eq e he.1
  have hcV : (monthCeil e).Valid := by rw [hcl]; exact firstOfNextMonth_valid e he.1
  have hcd : (monthCeil e).day = 1 := by rw [hcl]; exact firstOfNextMonth_day e
  have hfc : dlt (monthFloor s) (monthCeil e) = true := by
    rw [hfl, hcl]
    rcases monthLex_le_of_dle hse with h | ⟨hy, hm⟩ <;>
      unfold firstOfNextMonth <;> split <;> rw [dlt_char] <;>
        simp only [mk_year, mk_month, mk_day] <;> omega
  obtain ⟨hch, hall⟩ := iterFrom_spec monthStep (fun c => MONTHS.getD c.month "")
    (fun a => a.Valid ∧ a.day = 1) (monthCeil e)
    (fun a ha => ha.1) hcV
    (fun a ha => by
      rw [monthStep_eq a ha.1.1 ha.2]
      exact ⟨firstOfNextMonth_valid a ha.1.1, firstOfNextMonth_day a⟩)
    (fun a ha => by rw [monthStep_eq a ha.1.1 ha.2]; exact dlt_firstOfNextMonth a)
    (fun a ha hg => by
      rw [monthStep_eq a ha.1.1 ha.2]
      exact firstOfNextMonth_min ha.1 hcV hcd hg)
    (iterFuel (monthFloor s) (monthCeil e)) (monthFloor s)
    (by rw [hfl]; exact ⟨⟨hs.1, Nat.le_refl 1, daysInMonth_pos _ _⟩, rfl⟩)
    (dle_of_dlt hfc) (Nat.lt_succ_self _)
  exact coversSpec_of _ _ _ hch (fun iv hiv => (hall iv hiv).1) hfc

theorem years_covers (s e : CalDate) (hs : s.Valid) (he : e.Valid)
    (hse : dle s e = true) : CoversSpec (yearFloor s) (yearCeil e) (years s e) := by
  have hfl := yearFloor_eq s
  have hcl := yearCeil_eq e
  have hcV : (yearCeil e).Valid := by
    rw [hcl]
    exact ⟨by show (0 : Nat) < 12; omega, Nat.le_refl 1, daysInMonth_pos _ _⟩
  have hyse : s.year ≤ e.year := by
    rcases monthLex_le_of_dle hse with h | ⟨hy, _⟩ <;> omega
  have hfc : dlt (yearFloor s) (yearCeil e) = true := by
    rw [hfl, hcl, dlt_char]
    simp only [mk_year, mk_month, mk_day]
    omega
  obtain ⟨hch, hall⟩ := iterFrom_spec yearStep (fun c => toString c.year)
    (fun a => a.Valid ∧ a.month = 0 ∧ a.day = 1) (yearCeil e)
    (fun a ha => ha.1) hcV
    (fun a ha => by
      rw [yearStep_eq a ha.2.1 ha.2.2]
      exact ⟨⟨by show (0 : Nat) < 12; omega, Nat.le_refl 1, daysInMonth_pos _ _⟩, rfl, rfl⟩)
    (fun a ha => by
      rw [yearStep_eq a ha.2.1 ha.2.2, dlt_char]
      exact Or.inl (lt_add_one a.year))
    (fun a ha hg => by
      rw [yearStep_eq a ha.2.1 ha.2.2]
      rw [hcl] at hg ⊢
      rw [dlt_char] at hg
      rw [dle_iff, dlt_char, CalDate.ext_iff]
      simp only [mk_year, mk_month, mk_day, true_and, and_true] at hg ⊢
      obtain ⟨_, hm0, hd1⟩ := ha
      omega)
    (iterFuel (yearFloor s) (yearCeil e)) (yearFloor s)
    (by
      rw [hfl]
      exact ⟨⟨by show (0 : Nat) < 12; omega, Nat.le_refl 1, daysInMonth_pos _ _⟩, rfl, rfl⟩)
    (dle_of_dlt hfc) (Nat.lt_succ_self _)
  exact coversSpec_of _ _ _ hch (fun iv hiv => (hall iv hiv).1) hfc

/-- Claim C3: for every pair of dates `start <= end`, each of the `days`,
`months` and `years` iterators yields a nonempty, strictly ascending,
gap-free sequence of intervals that begins at the calendar floor of
`start` (day: midnight; month: first of month; year: Jan 1), ends at the
calendar ceiling of `end` (the boundary following the day/month/year
containing `end`), and whose union is exactly `[floor start, ceil end)`. -/
theorem C3_iterators_cover (s e : CalDate) (hs : s.Valid) (he : e.Valid)
    (hse : dle s e = true) :
    CoversSpec (dayFloor s) (dayCeil e) (days s e) ∧
    CoversSpec (monthFloor s) (monthCeil e) (months s e) ∧
    CoversSpec (yearFloor s) (yearCeil e) (years s e) :=
  ⟨days_covers s e hs he hse, months_covers s e hs he hse, years_covers s e hs he hse⟩

/-- Witness for C3 at concrete dates (Feb 27 2024 through Mar 2 2024). -/
theorem C3_iterators_cover_witness :
    ((⟨2024, 1, 27⟩ : CalDate).Valid ∧ (⟨2024, 2, 2⟩ : CalDate).Valid ∧
      dle ⟨2024, 1, 27⟩ ⟨2024, 2, 2⟩ = true) ∧
    (CoversSpec (dayFloor ⟨2024, 1, 27⟩) (dayCeil ⟨2024, 2, 2⟩)
        (days ⟨2024, 1, 27⟩ ⟨2024, 2, 2⟩) ∧
      CoversSpec (monthFloor ⟨2024, 1, 27⟩) (monthCeil ⟨2024, 2, 2⟩)
        (months ⟨2024, 1, 27⟩ ⟨2024, 2, 2⟩) ∧
      CoversSpec (yearFloor ⟨2024, 1, 27⟩) (yearCeil ⟨2024, 2, 2⟩)
        (years ⟨2024, 1, 27⟩ ⟨2024, 2, 2⟩)) :=
  ⟨⟨by decide, by decide, by decide⟩,
    C3_iterators_cover ⟨2024, 1, 27⟩ ⟨2024, 2, 2⟩ (by decide) (by decide) (by decide)⟩
/-! ### The week iterator (claim C2) -/

theorem fixDay_overflow_small (y : Int) (m : Nat) (hm : m < 12) (d : Nat)
    (h1 : daysInMonth y m < d) (h2 : d - daysInMonth y m ≤ 28) :
    fixDay y m d = ⟨(firstOfNextMonth ⟨y, m, 1⟩).year, (firstOfNextMonth ⟨y, m, 1⟩).month,
      d - daysInMonth y m⟩ := by
  have hd1 : 1 ≤ d := by have := daysInMonth_pos y m; omega
  unfold fixDay
  rcases d with _ | d
  · omega
  · unfold fixDayAux
    split
    · next hlt =>
      rw [fixDayAux_eq_self _ _ _ _ (le_trans h2 (daysInMonth_ge28 _ _))]
      rw [normMonth_succ y m hm]
      unfold firstOfNextMonth
      by_cases h11 : m < 11
      · simp only [mk_month, h11, if_true]
      · simp only [mk_month, h11, if_false]
    · next hge => omega

theorem weekStepped_char (a : CalDate) (ha : a.Valid) :
    weekStepped a = if a.day + 7 ≤ daysInMonth a.year a.month
      then ⟨a.year, a.month, a.day + 7⟩
      else ⟨(firstOfNextMonth a).year, (firstOfNextMonth a).month,
        a.day + 7 - daysInMonth a.year a.month⟩ := by
  obtain ⟨hm, hd1, hd2⟩ := ha
  unfold weekStepped mkDate
  rw [normMonth_small a.year a.month hm]
  by_cases h : a.day + 7 ≤ daysInMonth a.year a.month
  · rw [if_pos h]
    exact fixDay_eq_self _ _ _ h
  · rw [if_neg h]
    rw [fixDay_overflow_small a.year a.month hm (a.day + 7) (by omega) (by omega)]
    rw [firstOfNextMonth_irrelevant_day]

theorem weekClip_iff (a : CalDate) (ha : a.Valid) :
    weekClip a = true ↔ daysInMonth a.year a.month < a.day + 7 := by
  unfold weekClip
  rw [weekStepped_char a ha]
  by_cases h : a.day + 7 ≤ daysInMonth a.year a.month
  · rw [if_pos h]
    simp only [mk_year, mk_month, Bool.or_eq_true, decide_eq_true_eq]
    constructor
    · rintro (h' | h') <;> omega
    · intro h'; omega
  · rw [if_neg h]
    unfold firstOfNextMonth
    by_cases h11 : a.month < 11
    · simp only [h11, if_true, mk_year, mk_month, Bool.or_eq_true, decide_eq_true_eq]
      constructor
      · intro _; omega
      · intro _; exact Or.inl (by omega)
    · simp only [h11, if_false, mk_year, mk_month, Bool.or_eq_true, decide_eq_true_eq]
      constructor
      · intro _; omega
      · intro _; exact Or.inr (by omega)

theorem weekClip_eq_false (a : CalDate) (ha : a.Valid)
    (h : a.day + 7 ≤ daysInMonth a.year a.month) : weekClip a = false := by
  rcases hcv : weekClip a with _ | _
  · rfl
  · exact absurd ((weekClip_iff a ha).mp hcv) (by omega)

theorem weekEnd_char (a : CalDate) (ha : a.Valid) :
    weekEnd a = if a.day + 7 ≤ daysInMonth a.year a.month
      then ⟨a.year, a.month, a.day + 7⟩ else firstOfNextMonth a := by
  unfold weekEnd
  by_cases h : a.day + 7 ≤ daysInMonth a.year a.month
  · rw [if_pos h, weekClip_eq_false a ha h]
    rw [weekStepped_char a ha, if_pos h]
    simp
  · rw [if_neg h]
    have hc : weekClip a = true := (weekClip_iff a ha).mpr (by omega)
    rw [hc]
    simp only [if_true]
    rw [weekStepped_char a ha, if_neg h]
    simp only [mk_year, mk_month]
    rw [mkDate_first _ _ (firstOfNextMonth_valid a ha.1).1]
    conv_lhs => rw [← firstOfNextMonth_day a]

theorem weekEnd_valid (a : CalDate) (ha : a.Valid) : (weekEnd a).Valid := by
  rw [weekEnd_char a ha]
  split
  · next h =>
    exact ⟨ha.1, by show 1 ≤ a.day + 7; omega,
      by show a.day + 7 ≤ daysInMonth a.year a.month; exact h⟩
  · next h => exact firstOfNextMonth_valid a ha.1

theorem weekEnd_lt (a : CalDate) (ha : a.Valid) : dlt a (weekEnd a) = true := by
  rw [weekEnd_char a ha]
  split
  · next h =>
    rw [dlt_char]
    exact Or.inr ⟨rfl, Or.inr ⟨rfl, by show a.day < a.day + 7; omega⟩⟩
  · next h => exact dlt_firstOfNextMonth a

theorem weekEnd_min {a b : CalDate} (ha : a.Valid) (hb : b.Valid) (hbd : b.day = 1)
    (h : dlt a b = true) : dle (weekEnd a) b = true := by
  rw [weekEnd_char a ha]
  split
  · next hcase =>
    obtain ⟨ham, had1, had2⟩ := ha
    obtain ⟨hbm, hbd1, hbd2⟩ := hb
    rw [dlt_char] at h
    rw [dle_iff, dlt_char, CalDate.ext_iff]
    simp only [mk_year, mk_month, mk_day]
    omega
  · next hcase => exact firstOfNextMonth_min ha hb hbd h

theorem weeksFrom_spec (ceiling : CalDate) (hcV : ceiling.Valid) (hcd : ceiling.day = 1) :
    ∀ fuel cur week, cur.Valid → cur.day % 7 = 1 → week = (cur.day - 1) / 7 + 1 →
      dle cur ceiling = true →
      (code372 ceiling - code372 cur).toNat < fuel →
      IsChain cur (weeksFrom ceiling fuel cur week) ceiling ∧
      (∀ iv ∈ weeksFrom ceiling fuel cur week,
        dlt iv.s iv.e = true ∧ iv.s.Valid ∧ iv.s.day % 7 = 1 ∧
        iv.label = toString ((iv.s.day - 1) / 7 + 1) ∧
        iv.e = (if iv.s.day + 7 ≤ daysInMonth iv.s.year iv.s.month
          then ⟨iv.s.year, iv.s.month, iv.s.day + 7⟩ else firstOfNextMonth iv.s)) := by
  intro fuel
  induction fuel with
  | zero =>
    intro cur week hv hmod hwk hle hfl
    exact absurd hfl (by omega)
  | succ fuel ih =>
    intro cur week hv hmod hwk hle hfl
    unfold weeksFrom
    by_cases hg : dlt cur ceiling = true
    · rw [if_pos hg]
      have hnv : (weekEnd cur).Valid := weekEnd_valid cur hv
      have hlt' : dlt cur (weekEnd cur) = true := weekEnd_lt cur hv
      have hnle : dle (weekEnd cur) ceiling = true := weekEnd_min hv hcV hcd hg
      have hmod' : (weekEnd cur).day % 7 = 1 := by
        rw [weekEnd_char cur hv]
        split
        · next h => show (cur.day + 7) % 7 = 1; omega
        · next h => rw [firstOfNextMonth_day]
      have hwk' : (if weekClip cur then 0 else week) + 1 = ((weekEnd cur).day - 1) / 7 + 1 := by
        by_cases hc : daysInMonth cur.year cur.month < cur.day + 7
        · have hnc : ¬(cur.day + 7 ≤ daysInMonth cur.year cur.month) := by omega
          rw [(weekClip_iff cur hv).mpr hc]
          rw [weekEnd_char cur hv, if_neg hnc, firstOfNextMonth_day]
          simp
        · have hpc : cur.day + 7 ≤ daysInMonth cur.year cur.month := by omega
          rw [weekClip_eq_false cur hv hpc]
          rw [weekEnd_char cur hv, if_pos hpc]
          simp only [mk_day, Bool.false_eq_true, if_false]
          have hd1 : 1 ≤ cur.day := hv.2.1
          omega
      have hc1 : code372 cur < code372 (weekEnd cur) := (dlt_iff_code372 hv hnv).mp hlt'
      have hc2 : code372 (weekEnd cur) ≤ code372 ceiling := dle_code372 hnv hcV hnle
      have hc3 : code372 cur < code372 ceiling := (dlt_iff_code372 hv hcV).mp hg
      have hfl' : (code372 ceiling - code372 (weekEnd cur)).toNat < fuel := by omega
      obtain ⟨ihc, ihall⟩ := ih (weekEnd cur) ((if weekClip cur then 0 else week) + 1)
        hnv hmod' hwk' hnle hfl'
      refine ⟨⟨rfl, ihc⟩, ?_⟩
      intro iv hiv
      rcases List.mem_cons.mp hiv with rfl | hiv
      · refine ⟨hlt', hv, hmod, ?_, ?_⟩
        · show toString week = toString ((cur.day - 1) / 7 + 1)
          rw [hwk]
        · show weekEnd cur = _
          rw [weekEnd_char cur hv]
      · exact ihall iv hiv
    · rw [if_neg hg]
      exact ⟨eq_of_dle_not_dlt hle (eq_false_of_ne_true hg), by simp⟩

theorem isChain_chain' (R : LInterval → LInterval → Prop) :
    ∀ (L : List LInterval) (a b : CalDate), IsChain a L b →
      (∀ p q, p ∈ L → q ∈ L → q.s = p.e → R p q) → List.Chain' R L := by
  intro L
  induction L with
  | nil => intro a b _ _; exact List.chain'_nil
  | cons iv rest ih =>
    intro a b hch h
    obtain ⟨hs, hrest⟩ := hch
    cases rest with
    | nil => exact List.chain'_singleton iv
    | cons jv rest' =>
      obtain ⟨hjs, hrest'⟩ := hrest
      refine List.chain'_cons.mpr ⟨?_, ?_⟩
      · exact h iv jv (List.mem_cons_self _ _)
          (List.mem_cons_of_mem _ (List.mem_cons_self _ _)) hjs
      · exact ih iv.e b ⟨hjs, hrest'⟩
          (fun p q hp hq => h p q (List.mem_cons_of_mem _ hp) (List.mem_cons_of_mem _ hq))
theorem head_label_of_chain (L : List LInterval) (a b : CalDate) (hch : IsChain a L b)
    (hall : ∀ iv ∈ L, iv.label = toString ((iv.s.day - 1) / 7 + 1)) (hd : a.day = 1) :
    ∀ iv ∈ L.head?, iv.label = "1" := by
  cases L with
  | nil => intro iv hiv; simp at hiv
  | cons iv rest =>
    intro jv hjv
    simp only [List.head?_cons, Option.mem_def, Option.some.injEq] at hjv
    subst hjv
    obtain ⟨hs, _⟩ := hch
    rw [hall iv (List.mem_cons_self _ _), hs, hd]
    decide

theorem monthFloor_lt_monthCeil (s e : CalDate) (hs : s.Valid) (he : e.Valid)
    (hse : dle s e = true) : dlt (monthFloor s) (monthCeil e) = true := by
  rw [monthFloor_eq s hs.1, monthCeil_eq e he.1]
  rcases monthLex_le_of_dle hse with h | ⟨hy, hm⟩ <;>
    unfold firstOfNextMonth <;> split <;> rw [dlt_char] <;>
      simp only [mk_year, mk_month, mk_day] <;> omega

theorem weeks_spec_general (s e : CalDate) (hs : s.Valid) (he : e.Valid)
    (hse : dle s e = true) : WeeksSpec (monthFloor s) (monthCeil e) (weeks s e) := by
  have hfl : monthFloor s = ⟨s.year, s.month, 1⟩ := monthFloor_eq s hs.1
  have hcl : monthCeil e = firstOfNextMonth e := monthCeil_eq e he.1
  have hcV : (monthCeil e).Valid := by rw [hcl]; exact firstOfNextMonth_valid e he.1
  have hcd : (monthCeil e).day = 1 := by rw [hcl]; exact firstOfNextMonth_day e
  have hfc : dlt (monthFloor s) (monthCeil e) = true :=
    monthFloor_lt_monthCeil s e hs he hse
  have hfv : (monthFloor s).Valid := by
    rw [hfl]; exact ⟨hs.1, Nat.le_refl 1, daysInMonth_pos _ _⟩
  have hfmod : (monthFloor s).day % 7 = 1 := by rw [hfl]; simp [mk_day]
  have hfwk : 1 = ((monthFloor s).day - 1) / 7 + 1 := by rw [hfl]; simp [mk_day]
  obtain ⟨hch, hall⟩ := weeksFrom_spec (monthCeil e) hcV hcd
    (iterFuel (monthFloor s) (monthCeil e)) (monthFloor s) 1 hfv hfmod hfwk
    (dle_of_dlt hfc) (Nat.lt_succ_self _)
  refine ⟨hch, hall, ?_, ?_⟩
  · refine isChain_chain' _ (weeks s e) (monthFloor s) (monthCeil e) hch ?_
    intro p q hp hq hqs
    refine ⟨hqs, ?_⟩
    obtain ⟨hplt, hpv, hpmod, hplbl, hpe⟩ := hall p hp
    obtain ⟨hqlt, hqv, hqmod, hqlbl, hqe⟩ := hall q hq
    by_cases hcond : p.s.day + 7 ≤ daysInMonth p.s.year p.s.month
    · rw [if_pos hcond] at hpe
      have hqs' : q.s = ⟨p.s.year, p.s.month, p.s.day + 7⟩ := hqs.trans hpe
      have hcondq : q.s.year = p.s.year ∧ q.s.month = p.s.month := by
        rw [hqs']; exact ⟨rfl, rfl⟩
      rw [if_pos hcondq, hqlbl, hqs']
      simp only [mk_day]
      congr 1
      have h1 : 1 ≤ p.s.day := hpv.2.1
      omega
    · rw [if_neg hcond] at hpe
      have hqs' : q.s = firstOfNextMonth p.s := hqs.trans hpe
      have hcondq : ¬(q.s.year = p.s.year ∧ q.s.month = p.s.month) := by
        rw [hqs']
        unfold firstOfNextMonth
        split
        · next h => rintro ⟨_, hm⟩; simp only [mk_month] at hm; omega
        · next h => rintro ⟨hy, _⟩; simp only [mk_year] at hy; omega
      rw [if_neg hcondq, hqlbl, hqs', firstOfNextMonth_day]
      decide
  · exact head_label_of_chain (weeks s e) (monthFloor s) (monthCeil e) hch
      (fun iv hiv => ((hall iv hiv).2.2.2.1)) (by rw [hfl])

/-- Claim C2: the week iterator restarts its numbering at 1 at every
calendar month boundary — within each month the yielded labels are
"1", "2", ... in order, a week that would cross into the next month is
clipped to end on the first of that month, and crossing a year boundary
(Dec to Jan, where the clip is triggered by the year comparison) also
resets the numbering; in particular over [Jan 28 2024, Feb 5 2024) it
yields a final January week [Jan 29, Feb 1) labeled "5" followed by a week
[Feb 1, Feb 8) labeled "1". -/
theorem C2_week_numbering (s e : CalDate) (hs : s.Valid) (he : e.Valid)
    (hse : dle s e = true) :
    WeeksSpec (monthFloor s) (monthCeil e) (weeks s e) ∧
    weeks ⟨2024, 0, 28⟩ ⟨2024, 1, 5⟩ =
      [⟨⟨2024, 0, 1⟩, ⟨2024, 0, 8⟩, "1"⟩, ⟨⟨2024, 0, 8⟩, ⟨2024, 0, 15⟩, "2"⟩,
        ⟨⟨2024, 0, 15⟩, ⟨2024, 0, 22⟩, "3"⟩, ⟨⟨2024, 0, 22⟩, ⟨2024, 0, 29⟩, "4"⟩,
        ⟨⟨2024, 0, 29⟩, ⟨2024, 1, 1⟩, "5"⟩, ⟨⟨2024, 1, 1⟩, ⟨2024, 1, 8⟩, "1"⟩,
        ⟨⟨2024, 1, 8⟩, ⟨2024, 1, 15⟩, "2"⟩, ⟨⟨2024, 1, 15⟩, ⟨2024, 1, 22⟩, "3"⟩,
        ⟨⟨2024, 1, 22⟩, ⟨2024, 1, 29⟩, "4"⟩, ⟨⟨2024, 1, 29⟩, ⟨2024, 2, 1⟩, "5"⟩] :=
  ⟨weeks_spec_general s e hs he hse, by decide⟩

/-- Witness for C2 at the claim's concrete dates. -/
theorem C2_week_numbering_witness :
    ((⟨2024, 0, 28⟩ : CalDate).Valid ∧ (⟨2024, 1, 5⟩ : CalDate).Valid ∧
      dle ⟨2024, 0, 28⟩ ⟨2024, 1, 5⟩ = true) ∧
    (WeeksSpec (monthFloor ⟨2024, 0, 28⟩) (monthCeil ⟨2024, 1, 5⟩)
        (weeks ⟨2024, 0, 28⟩ ⟨2024, 1, 5⟩) ∧
      weeks ⟨2024, 0, 28⟩ ⟨2024, 1, 5⟩ =
        [⟨⟨2024, 0, 1⟩, ⟨2024, 0, 8⟩, "1"⟩, ⟨⟨2024, 0, 8⟩, ⟨2024, 0, 15⟩, "2"⟩,
          ⟨⟨2024, 0, 15⟩, ⟨2024, 0, 22⟩, "3"⟩, ⟨⟨2024, 0, 22⟩, ⟨2024, 0, 29⟩, "4"⟩,
          ⟨⟨2024, 0, 29⟩, ⟨2024, 1, 1⟩, "5"⟩, ⟨⟨2024, 1, 1⟩, ⟨2024, 1, 8⟩, "1"⟩,
          ⟨⟨2024, 1, 8⟩, ⟨2024, 1, 15⟩, "2"⟩, ⟨⟨2024, 1, 15⟩, ⟨2024, 1, 22⟩, "3"⟩,
          ⟨⟨2024, 1, 22⟩, ⟨2024, 1, 29⟩, "4"⟩, ⟨⟨2024, 1, 29⟩, ⟨2024, 2, 1⟩, "5"⟩]) :=
  ⟨⟨by decide, by decide, by decide⟩,
    C2_week_numbering ⟨2024, 0, 28⟩ ⟨2024, 1, 5⟩ (by decide) (by decide) (by decide)⟩
end Timeline
